import Mathlib

/-!
Verification development for the opat-core C++ reader and interpolation engine
(repository 4D-STAR/opat-core, directory opatIO-cpp).

Shallow embedding conventions:
* C++ `double` values are modelled exactly: coordinates, weights and axis values
  as rationals (`ℚ`), table cells as `FVal` (a rational together with the IEEE
  special values NaN and ±infinity, with IEEE propagation rules for the
  operations the blend loop uses).  Floating-point rounding is idealised away;
  the spec's 1e-8 tolerances are kept in the statements.
* Fallible C++ code (exceptions) returns `Except`/`Option`.
* Machine integers are `ℕ`/`ℤ`, with explicit `% 2^w` at the two places where
  wrap-around matters (uint32 subtraction in `slice`, uint64 truncation in the
  hash serialisation).
* The member `m_lastFoundSimplex` (mutable warm-start cache) is threaded
  explicitly: the walk returns its result together with the cache value that
  the member holds when the call ends.
-/

namespace Opat

/-! ### FloatIndexVector (src/private/indexVector.cpp) -/

/-- Errors thrown by the FloatIndexVector operations. -/
inductive ArgError where
  | invalidArgument
  | runtimeError
deriving DecidableEq, Repr

/-- Truncation toward zero of a rational, the exact semantics of C++
`std::trunc` applied to an exactly-represented value. -/
def qtrunc (q : ℚ) : ℤ := if q < 0 then ⌈q⌉ else ⌊q⌋

/-- Model of `round_to_nearest_multiple_of_power_of_10` (indexVector.cpp,
lines 28-36): `0` maps to `0`, negative input throws `std::invalid_argument`,
otherwise `(value + 5) / 10 * 10` with C++ integer division (the operand is
positive, so all division conventions coincide). -/
def round_to_nearest_multiple_of_10 (value : ℤ) : Except ArgError ℤ :=
  if value = 0 then .ok 0
  else if value < 0 then .error .invalidArgument
  else .ok ((value + 5) / 10 * 10)

/-- Model of the `FloatIndexVector` object state: the stored doubles
(`m_vector`), the integer image used for equality and hashing (`m_vectorInt`,
a `std::vector<uint64_t>` filled from non-negative `int` values), the hash
precision, and the `m_initialized` flag. -/
structure FloatIndexVector where
  vector : List ℚ
  vectorInt : List ℤ
  precision : ℤ
  inited : Bool
deriving DecidableEq, Repr

/-- Integer image of one value at precision `p`:
`round_to_nearest_multiple_of_10 (trunc (v * 10^p))` (setupVecs loop,
indexVector.cpp lines 75-79). -/
def imageElem (p : ℤ) (v : ℚ) : Except ArgError ℤ :=
  round_to_nearest_multiple_of_10 (qtrunc (v * (10 : ℚ) ^ p))

/-- The setupVecs loop over all values; the first negative scaled value
throws, abandoning construction. -/
def imageList (p : ℤ) : List ℚ → Except ArgError (List ℤ)
  | [] => .ok []
  | v :: vs => do
    let i ← imageElem p v
    let rest ← imageList p vs
    .ok (i :: rest)

/-- Model of the two-argument constructor
`FloatIndexVector(vec, hashPrescision)`, which runs `setupVecs`
(indexVector.cpp lines 53-80): validates `0 < p < 14` and a non-empty vector,
then computes the integer image. -/
def fivOfVector (vec : List ℚ) (p : ℤ) : Except ArgError FloatIndexVector :=
  if p ≤ 0 then .error .invalidArgument
  else if 14 ≤ p then .error .invalidArgument
  else if vec = [] then .error .invalidArgument
  else (imageList p vec).map fun imgs => ⟨vec, imgs, p, true⟩

/-- Model of default construction followed by `initialize(vec, p)`
(indexVector.cpp lines 166-174): `setHashPrecision` validates `p`,
`setVector` validates and stores the doubles, the flag is set — but the
integer image `m_vectorInt` is never computed and stays empty. -/
def fivViaInit (vec : List ℚ) (p : ℤ) : Except ArgError FloatIndexVector :=
  if p ≤ 0 then .error .invalidArgument
  else if 14 ≤ p then .error .invalidArgument
  else if vec = [] then .error .invalidArgument
  else .ok ⟨vec, [], p, true⟩

/-- Model of `FloatIndexVector::operator==` (indexVector.cpp lines 116-133):
both initialized, equal `m_vector` sizes, elementwise equal integer images
over the indices of the left operand's image, equal precisions.  (When the
right image is shorter the C++ read is out of bounds; the model reads 0.) -/
def fivBeq (a b : FloatIndexVector) : Bool :=
  a.inited && b.inited
    && (a.vector.length == b.vector.length)
    && ((List.range a.vectorInt.length).all fun i =>
          a.vectorInt.getD i 0 == b.vectorInt.getD i 0)
    && (a.precision == b.precision)

/-- Little-endian byte serialisation of one image element as a `uint64_t`
(the element count times `sizeof(uint64_t)` bytes hashed by
`FloatIndexVector::hash`, indexVector.cpp lines 210-218). -/
def bytesOfUInt64 (x : ℤ) : List ℕ :=
  (List.range 8).map fun i => (x % (2 : ℤ) ^ 64).toNat / 256 ^ i % 256

/-- The exact byte string read by `FloatIndexVector::hash`:
`m_vectorInt.data()` over `m_vectorInt.size() * sizeof(uint64_t)` bytes. -/
def fivSerialize (k : FloatIndexVector) : List ℕ :=
  k.vectorInt.flatMap bytesOfUInt64

/-- Model of `FloatIndexVector::hash`: `XXHash64::hash(data, bytes, 0)` is a
third-party pure function of the byte string; it is abstracted as the
parameter `h64`, applied to exactly the bytes the source hashes. -/
def fivHash (h64 : List ℕ → ℕ) (k : FloatIndexVector) : ℕ :=
  h64 (fivSerialize k)

/-! ### Endianness and the binary reader (src/private/opatIO.cpp) -/

/-- Value of a byte string interpreted as a little-endian integer (the
canonical on-disk encoding of every integer field). -/
def leVal : List ℕ → ℕ
  | [] => 0
  | b :: bs => b + 256 * leVal bs

/-- Value of a byte string interpreted as a big-endian integer: what a
big-endian host reads when the on-disk bytes are copied into an integer
field by `file.read(reinterpret_cast<char*>(&hdr), ...)`. -/
def beVal (bs : List ℕ) : ℕ :=
  bs.foldl (fun acc b => 256 * acc + b) 0

/-- Little-endian byte decomposition of an `n`-byte machine value. -/
def bytesOfVal (n v : ℕ) : List ℕ :=
  (List.range n).map fun i => v / 256 ^ i % 256

/-- Model of `opat::swap_bytes` (opatIO.h lines 816-826) acting on an
`n`-byte value: the byte order of the value is reversed. -/
def swap_bytes (n v : ℕ) : ℕ :=
  leVal (bytesOfVal n v).reverse

/-- The raw bytes of the integer fields of a `Header` record as they sit on
disk (little-endian file format, §6 of the format). -/
structure HeaderDiskInts where
  version : List ℕ       -- 2 bytes
  numTables : List ℕ     -- 4 bytes
  headerSize : List ℕ    -- 4 bytes
  indexOffset : List ℕ   -- 8 bytes
  numIndex : List ℕ      -- 2 bytes
  hashPrecision : List ℕ -- 1 byte
deriving DecidableEq, Repr

/-- Host-order integer fields of a parsed `Header`. -/
structure HeaderHost where
  version : ℕ
  numTables : ℕ
  headerSize : ℕ
  indexOffset : ℕ
  numIndex : ℕ
  hashPrecision : ℕ
deriving DecidableEq, Repr

/-- Model of `readHeader` (opatIO.cpp lines 92-107) on a big-endian host:
each field first holds the big-endian reinterpretation of the on-disk bytes,
then `swap_bytes` is applied to `version`, `numTables`, `indexOffset` and
`numIndex` — and to no other field. -/
def readHeaderBigEndian (d : HeaderDiskInts) : HeaderHost :=
  { version := swap_bytes 2 (beVal d.version)
    numTables := swap_bytes 4 (beVal d.numTables)
    headerSize := beVal d.headerSize
    indexOffset := swap_bytes 8 (beVal d.indexOffset)
    numIndex := swap_bytes 2 (beVal d.numIndex)
    hashPrecision := beVal d.hashPrecision }

/-- The raw bytes of the integer fields of a `TableIndexEntry` on disk. -/
structure TableIndexEntryDiskInts where
  byteStart : List ℕ  -- 8 bytes
  byteEnd : List ℕ    -- 8 bytes
  numColumns : List ℕ -- 2 bytes
  numRows : List ℕ    -- 2 bytes
  vectorSize : List ℕ -- 8 bytes (field `size` in the struct)
deriving DecidableEq, Repr

/-- Host-order integer fields of a parsed `TableIndexEntry`. -/
structure TableIndexEntryHost where
  byteStart : ℕ
  byteEnd : ℕ
  numColumns : ℕ
  numRows : ℕ
  vectorSize : ℕ
deriving DecidableEq, Repr

/-- Model of the per-entry parsing step of `readTableIndex` (opatIO.cpp
lines 192-210) on a big-endian host: `numColumns`, `numRows`, `byteStart`
and `byteEnd` are byte-swapped; the `size` (per-cell vector size) field is
not. -/
def readTableIndexEntryBigEndian (d : TableIndexEntryDiskInts) :
    TableIndexEntryHost :=
  { byteStart := swap_bytes 8 (beVal d.byteStart)
    byteEnd := swap_bytes 8 (beVal d.byteEnd)
    numColumns := swap_bytes 2 (beVal d.numColumns)
    numRows := swap_bytes 2 (beVal d.numRows)
    vectorSize := beVal d.vectorSize }

/-! ### Table cells with IEEE special values -/

/-- A table cell: an exactly-represented double.  `fin q` is a finite value,
`nan` / `pinf` / `ninf` the IEEE special values that the repository's tables
contain (NaN cells mark physically unreachable regions). -/
inductive FVal where
  | fin (q : ℚ)
  | nan
  | pinf
  | ninf
deriving DecidableEq, Repr

/-- IEEE addition on exact cells (used by `resultData[idx] += ...`):
NaN absorbs, infinities of opposite sign give NaN, finite values add
exactly. -/
def fadd : FVal → FVal → FVal
  | .nan, _ => .nan
  | .fin _, .nan => .nan
  | .pinf, .nan => .nan
  | .ninf, .nan => .nan
  | .fin a, .fin b => .fin (a + b)
  | .fin _, .pinf => .pinf
  | .fin _, .ninf => .ninf
  | .pinf, .fin _ => .pinf
  | .pinf, .pinf => .pinf
  | .pinf, .ninf => .nan
  | .ninf, .fin _ => .ninf
  | .ninf, .pinf => .nan
  | .ninf, .ninf => .ninf

/-- IEEE multiplication of a finite weight by a cell (the blend's
`weights[corner] * cornerData[idx]`): `0 * NaN = NaN` and `0 * ±inf = NaN`. -/
def wmul (w : ℚ) (x : FVal) : FVal :=
  match x with
  | .fin a => .fin (w * a)
  | .nan => .nan
  | .pinf => if 0 < w then .pinf else if w < 0 then .ninf else .nan
  | .ninf => if 0 < w then .ninf else if w < 0 then .pinf else .nan

/-- Whether a cell holds a finite value. -/
def FVal.isFinite : FVal → Bool
  | .fin _ => true
  | _ => false

/-- The comparison the spec's exactness property uses for one cell:
both NaN, or both finite and within `1e-8` of each other (infinities must
match exactly). -/
def cellApproxEq : FVal → FVal → Bool
  | .nan, .nan => true
  | .fin a, .fin b => decide (|a - b| ≤ 1 / 100000000)
  | .pinf, .pinf => true
  | .ninf, .ninf => true
  | _, _ => false

/-! ### OPATTable, slice and the table reader -/

/-- In-memory model of `OPATTable` (opatIO.h lines 258-266): sizes, the two
axis buffers and the cell-data buffer.  `vsize` models `m_vsize`. -/
structure OPATTable where
  nR : ℕ
  nC : ℕ
  vsize : ℕ
  rowValues : List FVal
  colValues : List FVal
  data : List FVal
deriving DecidableEq, Repr

/-- A half-open index range; `start`/`stop` model the `uint32_t`
`Slice::start` / `Slice::end` fields (`end` is a Lean keyword). -/
structure Slice where
  start : ℕ
  stop : ℕ
deriving DecidableEq, Repr

/-- Errors thrown by the table operations. -/
inductive TableError where
  | outOfRange
  | runtimeError
deriving DecidableEq, Repr

/-- Subtraction of `uint32_t` values (for `a`, `b` below `2^32`): the
wrap-around semantics of `slicedTable.N_R = rowSlice.end - rowSlice.start`. -/
def u32sub (a b : ℕ) : ℕ :=
  (a + 2 ^ 32 - b) % 2 ^ 32

/-- Model of `OPATTable::slice` (opatIO.cpp lines 400-421).  The guard
rejects `start ≥ length` and `end > length` per axis and nothing else.  The
result sizes are computed with `uint32_t` subtraction, and the three result
buffers are value-initialized (all `0.0`) at those sizes — the data buffer
at `N_R' * N_C'` computed in `uint32_t` arithmetic.  The nested copy loops
run over `[start, end)` of each axis (zero iterations when `start ≥ end`),
and ALL writes — the cell copy and both axis-entry copies — happen inside
the inner loop, so an empty range on either axis leaves every buffer,
including the other axis's, holding its zeros.  A cell of the data buffer
is written exactly when its row index `idx / N_C'` and column index
`idx % N_C'` fall inside the visited ranges (writes the source would place
beyond the allocated buffer — possible only in the undefined-behaviour
regime where `N_R' * N_C'` wraps — are dropped).  The source never assigns
`m_vsize` of the result (indeterminate; the model uses 0 as a stand-in). -/
def OPATTable.slice (t : OPATTable) (rowSlice colSlice : Slice) :
    Except TableError OPATTable :=
  if rowSlice.start ≥ t.nR ∨ rowSlice.stop > t.nR
      ∨ colSlice.start ≥ t.nC ∨ colSlice.stop > t.nC then
    .error .outOfRange
  else
    .ok { nR := u32sub rowSlice.stop rowSlice.start
          nC := u32sub colSlice.stop colSlice.start
          vsize := 0
          rowValues := (List.range (u32sub rowSlice.stop rowSlice.start)).map
            fun r =>
              if rowSlice.start + r < rowSlice.stop ∧ colSlice.start < colSlice.stop
              then t.rowValues.getD (rowSlice.start + r) (.fin 0)
              else .fin 0
          colValues := (List.range (u32sub colSlice.stop colSlice.start)).map
            fun c =>
              if colSlice.start + c < colSlice.stop ∧ rowSlice.start < rowSlice.stop
              then t.colValues.getD (colSlice.start + c) (.fin 0)
              else .fin 0
          data := (List.range
              (u32sub rowSlice.stop rowSlice.start
                * u32sub colSlice.stop colSlice.start % 2 ^ 32)).map
            fun idx =>
              if idx / u32sub colSlice.stop colSlice.start
                    < rowSlice.stop - rowSlice.start
                  ∧ idx % u32sub colSlice.stop colSlice.start
                    < colSlice.stop - colSlice.start
              then t.data.getD
                ((rowSlice.start + idx / u32sub colSlice.stop colSlice.start) * t.nC
                  + (colSlice.start + idx % u32sub colSlice.stop colSlice.start)) (.fin 0)
              else .fin 0 }

/-- Model of `readOPATTable` (opatIO.cpp lines 213-235).  The payload is the
double stream at the table's byte range: `numRows` row-axis values, then
`numColumns` column-axis values, then the cells.  The source allocates and
reads `numRows * numColumns` cell doubles — the entry's per-cell vector size
is not used — and checks only the final read's byte count (`gcount`);
`m_vsize` of the result is never assigned (0 stands in). -/
def readOPATTable (entry : TableIndexEntryHost) (payload : List FVal) :
    Except TableError OPATTable :=
  let nR := entry.numRows
  let nC := entry.numColumns
  if (payload.drop (nR + nC)).length < nR * nC then .error .runtimeError
  else
    .ok { nR := nR
          nC := nC
          vsize := 0
          rowValues := payload.take nR
          colValues := (payload.drop nR).take nC
          data := (payload.drop (nR + nC)).take (nR * nC) }

/-! ### Exact linear solver (model of `solveLinearSystem`, tableLattice.cpp
lines 517-533, which delegates to boost LU with partial pivoting).  In exact
arithmetic LU with partial pivoting returns the unique solution of a
nonsingular square system and reports failure exactly when the matrix is
singular; the model is Gaussian elimination over `ℚ` with the same success
criterion. -/

/-- Dot product of two coefficient lists (truncating at the shorter). -/
def dotQ (a b : List ℚ) : ℚ :=
  (List.zipWith (· * ·) a b).sum

/-- One augmented row of a linear system: coefficients and right-hand side. -/
abbrev LinRow := List ℚ × ℚ

/-- Select the first row whose leading coefficient is non-zero, returning it
together with the remaining rows.  (Exact-arithmetic stand-in for partial
pivoting: only zero/non-zero matters for success and for the solution.) -/
def findPivot : List LinRow → Option (LinRow × List LinRow)
  | [] => none
  | r :: rs =>
    if r.1.getD 0 0 ≠ 0 then some (r, rs)
    else
      match findPivot rs with
      | none => none
      | some (p, rest) => some (p, r :: rest)

/-- Eliminate the leading column of `r` using pivot row `p` and drop it. -/
def elimTail (p r : LinRow) : LinRow :=
  let f := r.1.getD 0 0 / p.1.getD 0 0
  (List.zipWith (fun a b => a - f * b) r.1.tail p.1.tail, r.2 - f * p.2)

/-- Gaussian elimination with back-substitution on `n` variables.  Fails
(like `lu_factorize` returning non-zero) exactly when no pivot is
available, i.e. the system is singular. -/
def gelim : ℕ → List LinRow → Option (List ℚ)
  | 0, _ => some []
  | n + 1, rows =>
    match findPivot rows with
    | none => none
    | some (p, rest) =>
      match gelim n (rest.map (elimTail p)) with
      | none => none
      | some xs => some ((p.2 - dotQ p.1.tail xs) / p.1.getD 0 0 :: xs)

/-- Model of `opat::lattice::solveLinearSystem`: solve `A·x = b` for a
square system, failing on a singular matrix. -/
def solveLinearSystem (a : List (List ℚ)) (b : List ℚ) : Option (List ℚ) :=
  gelim b.length (a.zip b)

/-! ### TableLattice (src/private/tableLattice.cpp) -/

/-- Errors surfaced by the lattice operations, one constructor per throw
site kind.  `cycleErr`, `noExitFaceErr` and `maxStepsErr` are the
`std::runtime_error`s the spec maps to `InternalError`. -/
inductive LatError where
  | dimMismatchErr
  | boundsErr
  | noSimplicesErr
  | idOutOfRangeErr
  | cycleErr
  | vertexCountErr
  | globalVertexOutErr
  | degenerateErr
  | solutionSizeErr
  | weightCountErr
  | noExitFaceErr
  | adjacencyOutErr
  | outOfHullErr
  | maxStepsErr
  | cardNotFoundErr
  | tableNotFoundErr
deriving DecidableEq, Repr

/-- Result of a successful point location: simplex ID and barycentric
weights (struct `Simplex`, tableLattice.h lines 38-41). -/
structure FoundSimplex where
  id : ℕ
  weights : List ℚ
deriving DecidableEq, Repr

/-- The warm-start cache `m_lastFoundSimplex`; `id = none` models the
`static_cast<std::size_t>(-1)` sentinel it is initialised with. -/
structure CacheSimplex where
  id : Option ℕ
  weights : List ℚ
deriving DecidableEq, Repr

/-- A data card: the tag-to-table map (`DataCard::tableData`), in discovery
order.  The card header and table index play no role in the claims. -/
structure DataCard where
  tables : List (String × OPATTable)
deriving DecidableEq, Repr

/-- State of a constructed `TableLattice` over its OPAT file: dimension
(`m_indexVectorSize = header.numIndex`), the vertex list `m_indexVectors`
(the catalog's ParamKey float vectors, in catalog order), the triangulation
`m_simplices`, the adjacency table `m_simplexAdjacency` (`none` models the
no-neighbor sentinel), the file's key-to-card map, and the warm-start
cache. -/
structure LatticeState where
  numIndex : ℕ
  indexVectors : List (List ℚ)
  simplices : List (List ℕ)
  adjacency : List (List (Option ℕ))
  cards : List (List ℚ × DataCard)
  lastFound : CacheSimplex
deriving DecidableEq, Repr

/-- Lookup of a card by its ParamKey float vector (`m_opat[iv]`).  The file's
keys are pairwise unequal, and the lattice only ever looks up vectors copied
from those keys, so exact equality coincides with the rounded ParamKey
equality of the `unordered_map`. -/
def lookupCard : List (List ℚ × DataCard) → List ℚ → Option DataCard
  | [], _ => none
  | (k, c) :: rest, iv => if k = iv then some c else lookupCard rest iv

/-- Lookup of a table by tag within a card (`DataCard::get`). -/
def lookupTable : List (String × OPATTable) → String → Option OPATTable
  | [], _ => none
  | (k, t) :: rest, tag => if k = tag then some t else lookupTable rest tag

/-- The walk's acceptance tolerance, `BARYCENTRIC_TOLERANCE = 1e-8`. -/
def baryTol : ℚ := 1 / 100000000

/-- Modelled from the spec: `OPAT::getBounds` is declared (opatIO.h line 587)
but its definition is not among the sources; per §4.3 of the spec it returns
the elementwise minimum of every ParamKey's original float values.  The
lattice's vertex list holds exactly those ParamKey vectors. -/
def dimMin (st : LatticeState) (d : ℕ) : ℚ :=
  match st.indexVectors with
  | [] => 0
  | iv :: ivs => ivs.foldl (fun acc v => min acc (v.getD d 0)) (iv.getD d 0)

/-- Modelled from the spec: the elementwise maximum component of
`OPAT::getBounds` (see `dimMin`). -/
def dimMax (st : LatticeState) (d : ℕ) : ℚ :=
  match st.indexVectors with
  | [] => 0
  | iv :: ivs => ivs.foldl (fun acc v => max acc (v.getD d 0)) (iv.getD d 0)

/-- Model of `TableLattice::validateIndexVector` (tableLattice.cpp lines
326-348): dimension check, then per-dimension bounds check. -/
def validateIndexVector (st : LatticeState) (q : List ℚ) :
    Except LatError Unit :=
  if q.length ≠ st.numIndex then .error .dimMismatchErr
  else if (List.range st.numIndex).any (fun d =>
      decide (q.getD d 0 < dimMin st d) || decide (dimMax st d < q.getD d 0)) then
    .error .boundsErr
  else .ok ()

/-- The augmented rows of the barycentric system: row `i` has coefficients
`M(i, j) = verts[j+1][i] - verts[0][i]` and right-hand side
`q[i] - verts[0][i]` (the loop of tableLattice.cpp lines 384-391). -/
def baryRows (n : ℕ) (q : List ℚ) (verts : List (List ℚ)) : List LinRow :=
  (List.range n).map fun i =>
    ((List.range n).map fun j =>
        (verts.getD (j + 1) []).getD i 0 - (verts.getD 0 []).getD i 0,
      q.getD i 0 - (verts.getD 0 []).getD i 0)

/-- Model of `TableLattice::calculateBarycentricWeights` (tableLattice.cpp
lines 350-423): validate the vertex count and all dimensions, build the
`N × N` system with column `j` equal to `v_{j+1} - v_0` and right-hand side
`q - v_0`, solve it, check the solution size, and return
`(1 - Σ λ_j) :: λ`. -/
def calculateBarycentricWeights (n : ℕ) (q : List ℚ) (verts : List (List ℚ)) :
    Except LatError (List ℚ) :=
  if verts.length ≠ n + 1 then .error .dimMismatchErr
  else if q.length ≠ n then .error .dimMismatchErr
  else if verts.any (fun v => v.length ≠ n) then .error .dimMismatchErr
  else
    match gelim n (baryRows n q verts) with
    | none => .error .degenerateErr
    | some xs =>
      if xs.length ≠ n then .error .solutionSizeErr
      else .ok ((1 - xs.sum) :: xs)

/-- The walk's inside test (tableLattice.cpp lines 233-239): every weight in
`[-tol, 1 + tol]`. -/
def isInsideWeights (w : List ℚ) : Bool :=
  w.all fun x => !(decide (x < -baryTol) || decide (1 + baryTol < x))

/-- The exit-face selection (tableLattice.cpp lines 254-262): the first
strictly-most-negative weight, starting from `0.0` and sentinel index. -/
def mostNegativeIndex (w : List ℚ) : ℚ × Option ℕ :=
  (List.range w.length).foldl
    (fun acc i => if w.getD i 0 < acc.1 then (w.getD i 0, some i) else acc)
    (0, none)

/-- One iteration of the walk loop body (tableLattice.cpp lines 185-316).
`inl` is an exit from `findContainingSimplex` — a throw (which leaves the
cache member `m_lastFoundSimplex` as it was) or a found simplex (the only
points at which the source assigns the cache) — and `inr` is the move to
the neighbor simplex with the updated visited set. -/
def walkStep (st : LatticeState) (q : List ℚ) (visited : List ℕ) (cur : ℕ)
    (cache : CacheSimplex) :
    (Except LatError FoundSimplex × CacheSimplex) ⊕ (List ℕ × ℕ) :=
  if st.simplices.length ≤ cur then .inl (.error .idOutOfRangeErr, cache)
  else if cur ∈ visited then .inl (.error .cycleErr, cache)
  else
    if (st.simplices.getD cur []).length ≠ st.numIndex + 1 then
      .inl (.error .vertexCountErr, cache)
    else if (st.simplices.getD cur []).any (fun g => st.indexVectors.length ≤ g) then
      .inl (.error .globalVertexOutErr, cache)
    else
      match calculateBarycentricWeights st.numIndex q
          ((st.simplices.getD cur []).map fun g => st.indexVectors.getD g []) with
      | .error e => .inl (.error e, cache)
      | .ok w =>
        if w.length ≠ st.numIndex + 1 then .inl (.error .weightCountErr, cache)
        else if isInsideWeights w then .inl (.ok ⟨cur, w⟩, ⟨some cur, w⟩)
        else
          match (mostNegativeIndex w).2 with
          | none => .inl (.error .noExitFaceErr, cache)
          | some exitIdx =>
            if -baryTol ≤ (mostNegativeIndex w).1 then
              .inl (.error .noExitFaceErr, cache)
            else if st.adjacency.length ≤ cur
                ∨ (st.adjacency.getD cur []).length ≤ exitIdx then
              .inl (.error .adjacencyOutErr, cache)
            else
              match (st.adjacency.getD cur []).getD exitIdx none with
              | none =>
                if isInsideWeights w then .inl (.ok ⟨cur, w⟩, ⟨some cur, w⟩)
                else .inl (.error .outOfHullErr, cache)
              | some nb => .inr (cur :: visited, nb)

/-- The walk loop with its step budget; exhausting the budget is the
`MAX_WALK_STEPS` throw (tableLattice.cpp lines 318-324). -/
def walkLoop (st : LatticeState) (q : List ℚ) :
    ℕ → List ℕ → ℕ → CacheSimplex → Except LatError FoundSimplex × CacheSimplex
  | 0, _, _, cache => (.error .maxStepsErr, cache)
  | fuel + 1, visited, cur, cache =>
    match walkStep st q visited cur cache with
    | .inl r => r
    | .inr (visited', nb) => walkLoop st q fuel visited' nb cache

/-- `MAX_WALK_STEPS = 2 * |simplices| + 10` for a non-empty triangulation
(tableLattice.cpp line 166). -/
def maxWalkSteps (st : LatticeState) : ℕ :=
  if 0 < st.simplices.length then st.simplices.length * 2 + 10 else 100

/-- The warm start (tableLattice.cpp lines 170-180): the cached simplex ID
when valid, else simplex 0. -/
def startSimplexId (st : LatticeState) : ℕ :=
  match st.lastFound.id with
  | some i => if i < st.simplices.length then i else 0
  | none => 0

/-- Model of `TableLattice::findContainingSimplex` (tableLattice.cpp lines
152-324): validation, empty-triangulation and dimension guards, then the
walk from the warm start with an empty visited set.  The second component is
the value of `m_lastFoundSimplex` when the call ends. -/
def findContainingSimplex (st : LatticeState) (q : List ℚ) :
    Except LatError FoundSimplex × CacheSimplex :=
  match validateIndexVector st q with
  | .error e => (.error e, st.lastFound)
  | .ok _ =>
    if st.simplices.length = 0 then (.error .noSimplicesErr, st.lastFound)
    else if q.length ≠ st.numIndex then (.error .dimMismatchErr, st.lastFound)
    else walkLoop st q (maxWalkSteps st) [] (startSimplexId st) st.lastFound

/-- Resolution of the corner tables of one tag: for each global vertex ID of
the simplex, look up the corner's card (`m_opat[iv]`) and its table for the
tag (`[key]`); a miss is the corresponding `std::out_of_range` /
`std::runtime_error` throw. -/
def resolveCorners (st : LatticeState) (key : String) :
    List ℕ → Except LatError (List OPATTable)
  | [] => .ok []
  | g :: gs => do
    match lookupCard st.cards (st.indexVectors.getD g []) with
    | none => .error .cardNotFoundErr
    | some card =>
      match lookupTable card.tables key with
      | none => .error .tableNotFoundErr
      | some t =>
        let rest ← resolveCorners st key gs
        .ok (t :: rest)

/-- One blended cell (the accumulation loop of `TableLattice::get`,
tableLattice.cpp lines 459-468, reordered per cell): starting from the
`0.0`-filled buffer, add `weights[corner] * cornerData[idx]` over the
corners in order. -/
def blendCell (corners : List OPATTable) (w : List ℚ) (idx : ℕ) : FVal :=
  (corners.zip w).foldl
    (fun acc tw => fadd acc (wmul tw.2 (tw.1.data.getD idx (.fin 0))))
    (.fin 0)

/-- One blended table of `TableLattice::get` (lines 443-469): the result
takes the base (anchor corner) table's sizes and axes; its
`numRows * numCols * m_vsize` cells are blended over the corners. -/
def blendTable (st : LatticeState) (gids : List ℕ) (w : List ℚ) (key : String)
    (base : OPATTable) : Except LatError OPATTable := do
  let corners ← resolveCorners st key gids
  let total := base.nR * base.nC * base.vsize
  .ok { nR := base.nR
        nC := base.nC
        vsize := base.vsize
        rowValues := base.rowValues.take base.nR
        colValues := base.colValues.take base.nC
        data := (List.range total).map fun idx => blendCell corners w idx }

/-- The per-tag loop of `TableLattice::get` over the anchor card's tags. -/
def blendTables (st : LatticeState) (gids : List ℕ) (w : List ℚ) :
    List (String × OPATTable) → Except LatError (List (String × OPATTable))
  | [] => .ok []
  | (key, base) :: rest => do
    let t ← blendTable st gids w key base
    let ts ← blendTables st gids w rest
    .ok ((key, t) :: ts)

/-- Model of `TableLattice::get` (tableLattice.cpp lines 426-473): validate,
locate the containing simplex, take the anchor corner's card (vertex 0 of
the located simplex) and blend each of its tables.  The second component is
the value of `m_lastFoundSimplex` when the call ends. -/
def latticeGet (st : LatticeState) (q : List ℚ) :
    Except LatError DataCard × CacheSimplex :=
  match validateIndexVector st q with
  | .error e => (.error e, st.lastFound)
  | .ok _ =>
    match findContainingSimplex st q with
    | (.error e, cache) => (.error e, cache)
    | (.ok fs, cache) =>
      match lookupCard st.cards
          (st.indexVectors.getD ((st.simplices.getD fs.id []).getD 0 0) []) with
      | none => (.error .cardNotFoundErr, cache)
      | some baseCard =>
        match blendTables st (st.simplices.getD fs.id []) fs.weights baseCard.tables with
        | .error e => (.error e, cache)
        | .ok tabs => (.ok ⟨tabs⟩, cache)

/-- The 0/1 indicator weight vector: 1 at position `k`, 0 elsewhere. -/
def indicatorW (k n : ℕ) : List ℚ :=
  (List.range n).map fun i => if i = k then 1 else 0

/-- The rational carried by a finite cell (0 for special values). -/
def FVal.finValue : FVal → ℚ
  | .fin q => q
  | _ => 0

/-- A vector `y` satisfies one augmented row. -/
def rowHolds (y : List ℚ) (r : LinRow) : Prop :=
  dotQ r.1 y = r.2

/-- A vector `y` satisfies every row of a system. -/
def solvesAll (rows : List LinRow) (y : List ℚ) : Prop :=
  ∀ r ∈ rows, rowHolds y r

/-- An empty placeholder table (the `getD` default). -/
def OPATTable.empty : OPATTable :=
  ⟨0, 0, 0, [], [], []⟩

/-! ### Concrete instances used by the counterexamples and witnesses.
A two-dimensional lattice over the three stored ParamKeys (0,0), (1,0) and
(0,1): one simplex with vertices [0, 1, 2] and no neighbors — exactly the
triangulation qhull produces for three affinely independent points.  Each
card holds one table `data` of shape 1 × 2 × 1. -/

/-- A 1 × 2 × 1 table with the two given cells. -/
def mkTable12 (c0 c1 : FVal) : OPATTable :=
  { nR := 1, nC := 2, vsize := 1
    rowValues := [.fin 0], colValues := [.fin 0, .fin 1]
    data := [c0, c1] }

/-- Lattice whose stored card at (0,0) holds `[5, NaN]` while the sibling
corner (1,0) holds `[NaN, 1]`: the NaN pattern differs across corners. -/
def cexLattice : LatticeState :=
  { numIndex := 2
    indexVectors := [[0, 0], [1, 0], [0, 1]]
    simplices := [[0, 1, 2]]
    adjacency := [[none, none, none]]
    cards := [([0, 0], ⟨[("data", mkTable12 (.fin 5) .nan)]⟩),
              ([1, 0], ⟨[("data", mkTable12 .nan (.fin 1))]⟩),
              ([0, 1], ⟨[("data", mkTable12 (.fin 7) (.fin 3))]⟩)]
    lastFound := ⟨none, []⟩ }

/-- Lattice whose corners share the NaN pattern: cell 0 is finite in every
card, cell 1 is NaN in the cards of the simplex containing (0,0). -/
def finLattice : LatticeState :=
  { numIndex := 2
    indexVectors := [[0, 0], [1, 0], [0, 1]]
    simplices := [[0, 1, 2]]
    adjacency := [[none, none, none]]
    cards := [([0, 0], ⟨[("data", mkTable12 (.fin 5) .nan)]⟩),
              ([1, 0], ⟨[("data", mkTable12 (.fin 9) .nan)]⟩),
              ([0, 1], ⟨[("data", mkTable12 (.fin 7) .nan)]⟩)]
    lastFound := ⟨none, []⟩ }

/-- A concrete 2 × 2 × 1 table for the slice claims. -/
def exTable : OPATTable :=
  { nR := 2, nC := 2, vsize := 1
    rowValues := [.fin 0, .fin 1], colValues := [.fin 0, .fin 1]
    data := [.fin 1, .fin 2, .fin 3, .fin 4] }

/-- A table-index entry with per-cell vector size 2 for the reader claims. -/
def exEntry : TableIndexEntryHost :=
  { byteStart := 0, byteEnd := 184, numColumns := 3, numRows := 2, vectorSize := 2 }

/-- A payload long enough for 2 + 3 axis values and 2·3·2 = 12 cells. -/
def exPayload : List FVal :=
  [.fin 0, .fin 1, .fin 2, .fin 3, .fin 4, .fin 5, .fin 6, .fin 7, .fin 8, .fin 9,
   .fin 10, .fin 11, .fin 12, .fin 13, .fin 14, .fin 15, .fin 16, .fin 17, .fin 18, .fin 19]

/-! ## Theorems

### Correctness of the exact linear solver -/

theorem dotQ_nil_left (y : List ℚ) : dotQ [] y = 0 := rfl

theorem dotQ_nil_right (a : List ℚ) : dotQ a [] = 0 := by
  cases a <;> rfl

theorem dotQ_cons (a y : ℚ) (as ys : List ℚ) :
    dotQ (a :: as) (y :: ys) = a * y + dotQ as ys := by
  simp [dotQ, List.zipWith]

theorem dotQ_zip_sub (f : ℚ) :
    ∀ (u v w : List ℚ), u.length = v.length →
      dotQ (List.zipWith (fun a b => a - f * b) u v) w
        = dotQ u w - f * dotQ v w := by
  intro u
  induction u with
  | nil =>
    intro v w hl
    cases v with
    | nil => simp [dotQ]
    | cons b v' => simp at hl
  | cons a u' ih =>
    intro v w hl
    cases v with
    | nil => simp at hl
    | cons b v' =>
      cases w with
      | nil => simp [dotQ_nil_right]
      | cons c w' =>
        have hl' : u'.length = v'.length := by simpa using hl
        simp only [List.zipWith, dotQ_cons, ih v' w' hl']
        ring

theorem findPivot_spec :
    ∀ (rows : List LinRow) (p : LinRow) (rest : List LinRow),
      findPivot rows = some (p, rest) →
      p.1.getD 0 0 ≠ 0 ∧ rows.length = rest.length + 1
        ∧ ∀ r, r ∈ rows ↔ r = p ∨ r ∈ rest := by
  intro rows
  induction rows with
  | nil => intro p rest h; simp [findPivot] at h
  | cons r rs ih =>
    intro p rest h
    by_cases hr : r.1.getD 0 0 ≠ 0
    · simp only [findPivot, if_pos hr, Option.some.injEq, Prod.mk.injEq] at h
      obtain ⟨rfl, rfl⟩ := h
      exact ⟨hr, by simp, fun x => by simp⟩
    · simp only [findPivot, if_neg hr] at h
      cases hfp : findPivot rs with
      | none => rw [hfp] at h; exact absurd h (by simp)
      | some pr =>
        obtain ⟨p', rest'⟩ := pr
        rw [hfp] at h
        simp only [Option.some.injEq, Prod.mk.injEq] at h
        obtain ⟨rfl, rfl⟩ := h
        obtain ⟨h1, h2, h3⟩ := ih p' rest' hfp
        refine ⟨h1, by simp [← h2], fun x => ?_⟩
        constructor
        · intro hx
          rcases List.mem_cons.mp hx with rfl | hx'
          · exact Or.inr (List.mem_cons_self _ _)
          · rcases (h3 x).mp hx' with rfl | hx''
            · exact Or.inl rfl
            · exact Or.inr (List.mem_cons_of_mem _ hx'')
        · intro hx
          rcases hx with rfl | hx'
          · exact List.mem_cons_of_mem _ ((h3 x).mpr (Or.inl rfl))
          · rcases List.mem_cons.mp hx' with rfl | hx''
            · exact List.mem_cons_self _ _
            · exact List.mem_cons_of_mem _ ((h3 x).mpr (Or.inr hx''))

theorem elimTail_length (p r : LinRow) (n : ℕ)
    (hp : p.1.length = n + 1) (hr : r.1.length = n + 1) :
    (elimTail p r).1.length = n := by
  simp [elimTail, List.length_zipWith, List.length_tail, hp, hr]

theorem elimTail_iff (p r : LinRow) (n : ℕ)
    (hp0 : p.1.getD 0 0 ≠ 0) (hplen : p.1.length = n + 1)
    (hrlen : r.1.length = n + 1) (y0 : ℚ) (ytl : List ℚ)
    (hhp : rowHolds (y0 :: ytl) p) :
    rowHolds (y0 :: ytl) r ↔ rowHolds ytl (elimTail p r) := by
  obtain ⟨ph, pt, hp1⟩ : ∃ ph pt, p.1 = ph :: pt := by
    cases hq : p.1 with
    | nil => rw [hq] at hplen; simp at hplen
    | cons x xs => exact ⟨x, xs, rfl⟩
  obtain ⟨rh, rt, hr1⟩ : ∃ rh rt, r.1 = rh :: rt := by
    cases hq : r.1 with
    | nil => rw [hq] at hrlen; simp at hrlen
    | cons x xs => exact ⟨x, xs, rfl⟩
  have hph : ph ≠ 0 := by rw [hp1] at hp0; simpa using hp0
  have hptlen : pt.length = n := by rw [hp1] at hplen; simpa using hplen
  have hrtlen : rt.length = n := by rw [hr1] at hrlen; simpa using hrlen
  have hhp' : ph * y0 + dotQ pt ytl = p.2 := by
    have := hhp
    rw [rowHolds, hp1, dotQ_cons] at this
    exact this
  have hf1 : (elimTail p r).1 = List.zipWith (fun a b => a - rh / ph * b) rt pt := by
    simp [elimTail, hp1, hr1]
  have hf2 : (elimTail p r).2 = r.2 - rh / ph * p.2 := by
    simp [elimTail, hp1, hr1]
  rw [rowHolds, hr1, dotQ_cons, rowHolds, hf1, hf2]
  rw [dotQ_zip_sub (rh / ph) rt pt ytl (by rw [hptlen, hrtlen])]
  have hfph : rh / ph * ph = rh := div_mul_cancel₀ rh hph
  constructor
  · intro h
    linear_combination h + y0 * hfph - rh / ph * hhp'
  · intro h
    linear_combination h - y0 * hfph + rh / ph * hhp'

theorem gelim_correct :
    ∀ (n : ℕ) (rows : List LinRow) (xs : List ℚ),
      rows.length = n → (∀ r ∈ rows, r.1.length = n) →
      gelim n rows = some xs →
      xs.length = n ∧ ∀ y : List ℚ, y.length = n → (solvesAll rows y ↔ y = xs) := by
  intro n
  induction n with
  | zero =>
    intro rows xs hcount _ hg
    have hrows : rows = [] := List.length_eq_zero.mp hcount
    have hxs : xs = [] := by
      simp only [gelim] at hg
      exact (Option.some.inj hg).symm
    subst hrows hxs
    refine ⟨rfl, fun y hy => ?_⟩
    have : y = [] := List.length_eq_zero.mp hy
    subst this
    simp [solvesAll]
  | succ n ih =>
    intro rows xs hcount hrlen hg
    simp only [gelim] at hg
    cases hfp : findPivot rows with
    | none => simp only [hfp] at hg; exact absurd hg (by simp)
    | some pr =>
      obtain ⟨p, rest⟩ := pr
      simp only [hfp] at hg
      cases hge : gelim n (rest.map (elimTail p)) with
      | none => simp only [hge] at hg; exact absurd hg (by simp)
      | some xs' =>
        simp only [hge, Option.some.injEq] at hg
        have hxs : xs = (p.2 - dotQ p.1.tail xs') / p.1.getD 0 0 :: xs' := hg.symm
        obtain ⟨hp0, hlen1, hmem⟩ := findPivot_spec rows p rest hfp
        have hpmem : p ∈ rows := (hmem p).mpr (Or.inl rfl)
        have hplen : p.1.length = n + 1 := hrlen p hpmem
        have hrestmem : ∀ r ∈ rest, r ∈ rows := fun r hr => (hmem r).mpr (Or.inr hr)
        have hrest'len : (rest.map (elimTail p)).length = n := by
          rw [List.length_map]; omega
        have hrest'rows : ∀ r ∈ rest.map (elimTail p), r.1.length = n := by
          intro r hr
          obtain ⟨r0, hr0, rfl⟩ := List.mem_map.mp hr
          exact elimTail_length p r0 n hplen (hrlen r0 (hrestmem r0 hr0))
        obtain ⟨hxs'len, hiff⟩ := ih (rest.map (elimTail p)) xs' hrest'len hrest'rows hge
        refine ⟨by rw [hxs]; simp [hxs'len], fun y hy => ?_⟩
        obtain ⟨y0, ytl, rfl⟩ : ∃ y0 ytl, y = y0 :: ytl := by
          cases y with
          | nil => simp at hy
          | cons a as => exact ⟨a, as, rfl⟩
        have hytl : ytl.length = n := by simpa using hy
        have step1 : solvesAll rows (y0 :: ytl) ↔
            rowHolds (y0 :: ytl) p ∧ solvesAll rest (y0 :: ytl) := by
          constructor
          · intro h
            exact ⟨h p hpmem, fun r hr => h r (hrestmem r hr)⟩
          · rintro ⟨h1, h2⟩ r hr
            rcases (hmem r).mp hr with rfl | hr'
            · exact h1
            · exact h2 r hr'
        rw [step1]
        constructor
        · rintro ⟨h1, h2⟩
          have step2 : solvesAll (rest.map (elimTail p)) ytl := by
            intro r' hr'
            obtain ⟨r0, hr0, rfl⟩ := List.mem_map.mp hr'
            exact (elimTail_iff p r0 n hp0 hplen
              (hrlen r0 (hrestmem r0 hr0)) y0 ytl h1).mp (h2 r0 hr0)
          have hy' : ytl = xs' := (hiff ytl hytl).mp step2
          subst hy'
          rw [hxs]
          have hh := h1
          obtain ⟨ph, pt, hp1⟩ : ∃ ph pt, p.1 = ph :: pt := by
            cases hq : p.1 with
            | nil => rw [hq] at hplen; simp at hplen
            | cons a as => exact ⟨a, as, rfl⟩
          rw [rowHolds, hp1, dotQ_cons] at hh
          have hph : ph ≠ 0 := by rw [hp1] at hp0; simpa using hp0
          have : y0 = (p.2 - dotQ pt ytl) / ph := by
            field_simp
            linarith
          simp [hp1, this]
        · intro h
          rw [hxs] at h
          obtain ⟨hy0, hytl'⟩ : y0 = (p.2 - dotQ p.1.tail xs') / p.1.getD 0 0 ∧ ytl = xs' := by
            exact ⟨(List.cons.injEq _ _ _ _ ▸ h).1, (List.cons.injEq _ _ _ _ ▸ h).2⟩
          subst hytl'
          have h1 : rowHolds (y0 :: ytl) p := by
            obtain ⟨ph, pt, hp1⟩ : ∃ ph pt, p.1 = ph :: pt := by
              cases hq : p.1 with
              | nil => rw [hq] at hplen; simp at hplen
              | cons a as => exact ⟨a, as, rfl⟩
            have hph : ph ≠ 0 := by rw [hp1] at hp0; simpa using hp0
            rw [rowHolds, hp1, dotQ_cons]
            rw [hp1] at hy0
            simp at hy0
            rw [hy0]
            field_simp
          refine ⟨h1, fun r hr => ?_⟩
          have step2 : solvesAll (rest.map (elimTail p)) ytl :=
            (hiff ytl hytl).mpr rfl
          exact (elimTail_iff p r n hp0 hplen (hrlen r (hrestmem r hr)) y0 ytl h1).mpr
            (step2 (elimTail p r) (List.mem_map_of_mem _ hr))

/-! ### Indicator weight vectors -/

theorem indicatorW_length (k n : ℕ) : (indicatorW k n).length = n := by
  simp [indicatorW]

theorem indicatorW_zero (n : ℕ) :
    indicatorW 0 (n + 1) = 1 :: List.replicate n (0 : ℚ) := by
  rw [indicatorW, List.range_succ_eq_map, List.map_cons, List.map_map]
  simp [Function.comp, List.map_const', List.eq_replicate_iff]

theorem indicatorW_succ (k n : ℕ) :
    indicatorW (k + 1) (n + 1) = 0 :: indicatorW k n := by
  rw [indicatorW, List.range_succ_eq_map, List.map_cons, List.map_map, indicatorW]
  refine congrArg₂ List.cons (by simp) (List.map_congr_left fun i _ => ?_)
  by_cases hik : i = k
  · simp [Function.comp, hik]
  · have hik' : i + 1 ≠ k + 1 := by omega
    simp [Function.comp, hik, hik']

theorem dotQ_replicate_zero : ∀ (xs : List ℚ) (n : ℕ),
    dotQ xs (List.replicate n 0) = 0 := by
  intro xs
  induction xs with
  | nil => intro n; simp [dotQ]
  | cons a as ih =>
    intro n
    cases n with
    | zero => simp [dotQ_nil_right]
    | succ m => simp [List.replicate, dotQ_cons, ih]

theorem dotQ_indicator_right :
    ∀ (n : ℕ) (xs : List ℚ) (j : ℕ), xs.length = n → j < n →
      dotQ xs (indicatorW j n) = xs.getD j 0 := by
  intro n
  induction n with
  | zero => intro xs j _ hj; omega
  | succ m ih =>
    intro xs j hlen hj
    obtain ⟨x, xs', rfl⟩ : ∃ x xs', xs = x :: xs' := by
      cases xs with
      | nil => simp at hlen
      | cons a as => exact ⟨a, as, rfl⟩
    cases j with
    | zero =>
      rw [indicatorW_zero, dotQ_cons, dotQ_replicate_zero]
      simp
    | succ j' =>
      rw [indicatorW_succ, dotQ_cons, ih xs' j' (by simpa using hlen) (by omega)]
      simp

theorem dotQ_indicator_left :
    ∀ (n : ℕ) (xs : List ℚ) (j : ℕ), xs.length = n → j < n →
      dotQ (indicatorW j n) xs = xs.getD j 0 := by
  intro n
  induction n with
  | zero => intro xs j _ hj; omega
  | succ m ih =>
    intro xs j hlen hj
    obtain ⟨x, xs', rfl⟩ : ∃ x xs', xs = x :: xs' := by
      cases xs with
      | nil => simp at hlen
      | cons a as => exact ⟨a, as, rfl⟩
    cases j with
    | zero =>
      rw [indicatorW_zero, dotQ_cons]
      have : ∀ (ys : List ℚ) (k : ℕ), dotQ (List.replicate k (0:ℚ)) ys = 0 := by
        intro ys
        induction ys with
        | nil => intro k; simp [dotQ_nil_right]
        | cons b bs ihb =>
          intro k
          cases k with
          | zero => simp [dotQ]
          | succ k' => simp [List.replicate, dotQ_cons, ihb]
      rw [this]
      simp
    | succ j' =>
      rw [indicatorW_succ, dotQ_cons, ih xs' j' (by simpa using hlen) (by omega)]
      simp

theorem indicatorW_sum : ∀ (n k : ℕ), k < n → (indicatorW k n).sum = 1 := by
  intro n
  induction n with
  | zero => intro k hk; omega
  | succ m ih =>
    intro k hk
    cases k with
    | zero => rw [indicatorW_zero]; simp
    | succ k' => rw [indicatorW_succ]; simp [ih k' (by omega)]

/-! ### Barycentric-weight lemmas -/

theorem baryRows_length (n : ℕ) (q : List ℚ) (verts : List (List ℚ)) :
    (baryRows n q verts).length = n := by
  simp [baryRows]

theorem baryRows_coeff_length (n : ℕ) (q : List ℚ) (verts : List (List ℚ)) :
    ∀ r ∈ baryRows n q verts, r.1.length = n := by
  intro r hr
  obtain ⟨i, _, rfl⟩ := List.mem_map.mp hr
  simp

theorem getD_map_range {α : Type} (f : ℕ → α) (n i : ℕ) (h : i < n) (d : α) :
    ((List.range n).map f).getD i d = f i := by
  have hlen : i < ((List.range n).map f).length := by simp [h]
  rw [List.getD_eq_getElem _ _ hlen]
  simp

/-- Shape of a successful `calculateBarycentricWeights` call: all validation
passed and the weight vector is `(1 - Σ λ) :: λ` for the solver output `λ`. -/
theorem calcBW_ok (n : ℕ) (q : List ℚ) (verts : List (List ℚ)) (w : List ℚ)
    (h : calculateBarycentricWeights n q verts = .ok w) :
    verts.length = n + 1 ∧ q.length = n ∧ (∀ v ∈ verts, v.length = n)
      ∧ ∃ xs, gelim n (baryRows n q verts) = some xs ∧ xs.length = n
          ∧ w = (1 - xs.sum) :: xs := by
  rw [calculateBarycentricWeights] at h
  split at h
  case isTrue => exact absurd h (by simp)
  case isFalse h1 =>
    split at h
    case isTrue => exact absurd h (by simp)
    case isFalse h2 =>
      split at h
      case isTrue => exact absurd h (by simp)
      case isFalse h3 =>
        cases hge : gelim n (baryRows n q verts) with
        | none => rw [hge] at h; exact absurd h (by simp)
        | some xs0 =>
          rw [hge] at h
          split at h
          · exact absurd h (by simp)
          · rename_i xsv hsome
            obtain rfl : xsv = xs0 := (Option.some.inj hsome).symm
            split at h
            · exact absurd h (by simp)
            · rename_i h4
              injection h with h
              refine ⟨by omega, by omega, ?_, xsv, rfl, by omega, h.symm⟩
              intro v hv
              by_contra hne
              exact h3 (List.any_eq_true.mpr ⟨v, hv, by simpa using hne⟩)

/-- A successful weight vector has `N + 1` entries and sums to exactly 1. -/
theorem calcBW_sum (n : ℕ) (q : List ℚ) (verts : List (List ℚ)) (w : List ℚ)
    (h : calculateBarycentricWeights n q verts = .ok w) :
    w.length = n + 1 ∧ w.sum = 1 := by
  obtain ⟨_, _, _, xs, _, hlen, rfl⟩ := calcBW_ok n q verts w h
  constructor
  · simp [hlen]
  · simp

/-- When the query is the `k`-th vertex of the simplex, the computed weights
are exactly the 0/1 indicator of corner `k` (exact arithmetic: the indicator
solves the system, and the solver's solution is unique). -/
theorem calcBW_vertex (n : ℕ) (q : List ℚ) (verts : List (List ℚ)) (w : List ℚ)
    (k : ℕ) (hk : k < verts.length) (hq : verts.getD k [] = q)
    (h : calculateBarycentricWeights n q verts = .ok w) :
    w = indicatorW k (n + 1) := by
  obtain ⟨hvlen, hqlen, hvall, xs, hge, hxslen, rfl⟩ := calcBW_ok n q verts w h
  have hcor := gelim_correct n (baryRows n q verts) xs (baryRows_length n q verts)
    (baryRows_coeff_length n q verts) hge
  rcases Nat.eq_zero_or_pos k with hk0 | hkpos
  · subst hk0
    have hsolves : solvesAll (baryRows n q verts) (List.replicate n 0) := by
      intro r hr
      obtain ⟨i, hi, rfl⟩ := List.mem_map.mp hr
      simp only [rowHolds]
      rw [dotQ_replicate_zero, hq]
      ring
    have hexs : List.replicate n (0 : ℚ) = xs :=
      (hcor.2 _ (by simp)).mp hsolves
    rw [← hexs, indicatorW_zero]
    simp
  · obtain ⟨k1, rfl⟩ : ∃ k1, k = k1 + 1 := ⟨k - 1, by omega⟩
    have hk1 : k1 < n := by omega
    have hsolves : solvesAll (baryRows n q verts) (indicatorW k1 n) := by
      intro r hr
      obtain ⟨i, hi, rfl⟩ := List.mem_map.mp hr
      simp only [rowHolds]
      rw [dotQ_indicator_right n _ k1 (by simp) hk1,
        getD_map_range _ n k1 hk1, hq]
    have hexs : indicatorW k1 n = xs :=
      (hcor.2 _ (indicatorW_length k1 n)).mp hsolves
    rw [← hexs, indicatorW_sum n k1 hk1, indicatorW_succ]
    norm_num

/-! ### Walk lemmas -/

theorem sum_inl_pair_inj {α β γ : Type} {a₁ a₂ : α} {b₁ b₂ : β}
    (h : (Sum.inl (a₁, b₁) : (α × β) ⊕ γ) = Sum.inl (a₂, b₂)) :
    a₁ = a₂ ∧ b₁ = b₂ := by
  injection h with h'
  exact ⟨congrArg Prod.fst h', congrArg Prod.snd h'⟩

/-- Case analysis on an exiting walk iteration: every throw leaves the cache
untouched, and the only success site returns the current simplex with its
computed, range-checked weights and caches exactly that. -/
theorem walkStep_inl (st : LatticeState) (q : List ℚ) (V : List ℕ) (cur : ℕ)
    (cache : CacheSimplex) (res : Except LatError FoundSimplex) (r2 : CacheSimplex)
    (h : walkStep st q V cur cache = .inl (res, r2)) :
    (∃ e, res = .error e ∧ r2 = cache) ∨
    (∃ w, res = .ok ⟨cur, w⟩ ∧ r2 = ⟨some cur, w⟩
      ∧ cur < st.simplices.length ∧ cur ∉ V
      ∧ (st.simplices.getD cur []).length = st.numIndex + 1
      ∧ (∀ g ∈ st.simplices.getD cur [], g < st.indexVectors.length)
      ∧ calculateBarycentricWeights st.numIndex q
          ((st.simplices.getD cur []).map fun g => st.indexVectors.getD g []) = .ok w
      ∧ isInsideWeights w = true) := by
  rw [walkStep] at h
  repeat' split at h
  all_goals try exact Or.inl ⟨_, (sum_inl_pair_inj h).1.symm, (sum_inl_pair_inj h).2.symm⟩
  all_goals try exact Sum.noConfusion h
  rename_i h5 h4 h3 h2 x w hcalc hwlen hinside
  obtain ⟨h1, h2'⟩ := sum_inl_pair_inj h
  refine Or.inr ⟨w, h1.symm, h2'.symm, by omega, h4, by omega, ?_, hcalc, hinside⟩
  intro g hg
  by_contra hge
  refine h2 (List.any_eq_true.mpr ⟨g, hg, ?_⟩)
  simp only [decide_eq_true_eq]
  omega

/-- A continuing walk iteration pushes the current simplex onto the visited
set and moves on. -/
theorem walkStep_inr (st : LatticeState) (q : List ℚ) (V : List ℕ) (cur : ℕ)
    (cache : CacheSimplex) (V' : List ℕ) (nb : ℕ)
    (h : walkStep st q V cur cache = .inr (V', nb)) :
    V' = cur :: V ∧ cur ∉ V ∧ cur < st.simplices.length := by
  rw [walkStep] at h
  repeat' split at h
  all_goals try exact Sum.noConfusion h
  refine ⟨(congrArg Prod.fst (Sum.inr.inj h)).symm, by assumption, by omega⟩

/-- A failing walk leaves the cache value unchanged. -/
theorem walkLoop_err (st : LatticeState) (q : List ℚ) :
    ∀ (fuel : ℕ) (V : List ℕ) (cur : ℕ) (cache : CacheSimplex) (e : LatError)
      (r2 : CacheSimplex),
      walkLoop st q fuel V cur cache = (.error e, r2) → r2 = cache := by
  intro fuel
  induction fuel with
  | zero =>
    intro V cur cache e r2 h
    rw [walkLoop] at h
    exact (congrArg Prod.snd h).symm
  | succ f ih =>
    intro V cur cache e r2 h
    rw [walkLoop] at h
    cases hws : walkStep st q V cur cache with
    | inl r =>
      rw [hws] at h
      obtain ⟨res, rc⟩ := r
      have h' : (res, rc) = ((Except.error e : Except LatError FoundSimplex), r2) := h
      obtain ⟨hres, hrc⟩ := Prod.mk.inj h'
      subst hres hrc
      rcases walkStep_inl st q V cur cache _ _ hws with ⟨e', _, hc⟩ | ⟨w, hr, _⟩
      · exact hc
      · exact Except.noConfusion hr
    | inr p =>
      obtain ⟨V', nb⟩ := p
      rw [hws] at h
      exact ih V' nb cache e r2 h

/-- Postconditions of a successful walk: the returned weights are the
computed barycentric weights of the returned simplex, they passed the
range check, and the cache now holds exactly the returned simplex. -/
theorem walkLoop_ok (st : LatticeState) (q : List ℚ) :
    ∀ (fuel : ℕ) (V : List ℕ) (cur : ℕ) (cache : CacheSimplex)
      (fs : FoundSimplex) (r2 : CacheSimplex),
      walkLoop st q fuel V cur cache = (.ok fs, r2) →
      r2 = ⟨some fs.id, fs.weights⟩
        ∧ fs.id < st.simplices.length
        ∧ (st.simplices.getD fs.id []).length = st.numIndex + 1
        ∧ (∀ g ∈ st.simplices.getD fs.id [], g < st.indexVectors.length)
        ∧ calculateBarycentricWeights st.numIndex q
            ((st.simplices.getD fs.id []).map fun g => st.indexVectors.getD g [])
            = .ok fs.weights
        ∧ isInsideWeights fs.weights = true := by
  intro fuel
  induction fuel with
  | zero =>
    intro V cur cache fs r2 h
    rw [walkLoop] at h
    exact Except.noConfusion (congrArg Prod.fst h)
  | succ f ih =>
    intro V cur cache fs r2 h
    rw [walkLoop] at h
    cases hws : walkStep st q V cur cache with
    | inl r =>
      rw [hws] at h
      obtain ⟨res, rc⟩ := r
      have h' : (res, rc) = ((Except.ok fs : Except LatError FoundSimplex), r2) := h
      obtain ⟨hres, hrc⟩ := Prod.mk.inj h'
      subst hres hrc
      rcases walkStep_inl st q V cur cache _ _ hws with
        ⟨e', he, _⟩ | ⟨w, hr, hc, hlt, hmem, hglen, hgall, hcalc, hin⟩
      · exact Except.noConfusion he
      · obtain rfl : fs = ⟨cur, w⟩ := Except.ok.inj hr
        exact ⟨hc, hlt, hglen, hgall, hcalc, hin⟩
    | inr p =>
      obtain ⟨V', nb⟩ := p
      rw [hws] at h
      exact ih V' nb cache fs r2 h

/-- Adding one unit of fuel beyond `|simplices| + 1 - |visited|` does not
change the walk's outcome: each continuing step visits a fresh simplex, and
only `|simplices|` distinct simplices exist. -/
theorem walkLoop_fuel_stable (st : LatticeState) (q : List ℚ) :
    ∀ (f : ℕ) (V : List ℕ) (cur : ℕ) (cache : CacheSimplex),
      V.Nodup → (∀ v ∈ V, v < st.simplices.length) →
      st.simplices.length + 1 ≤ f + V.length →
      walkLoop st q (f + 1) V cur cache = walkLoop st q f V cur cache := by
  intro f
  induction f with
  | zero =>
    intro V cur cache hnd hbd hle
    exfalso
    have hsub : V ⊆ List.range st.simplices.length :=
      fun v hv => List.mem_range.mpr (hbd v hv)
    have := List.Subperm.length_le (List.Nodup.subperm hnd hsub)
    simp only [List.length_range] at this
    omega
  | succ f ih =>
    intro V cur cache hnd hbd hle
    rw [walkLoop, walkLoop]
    cases hws : walkStep st q V cur cache with
    | inl r => rfl
    | inr p =>
      obtain ⟨V', nb⟩ := p
      obtain ⟨rfl, hmem, hlt⟩ := walkStep_inr st q V cur cache V' nb hws
      refine ih (cur :: V) nb cache (List.nodup_cons.mpr ⟨hmem, hnd⟩) ?_ ?_
      · intro v hv
        rcases List.mem_cons.mp hv with rfl | hv'
        · exact hlt
        · exact hbd v hv'
      · simp only [List.length_cons]
        omega

/-- Any fuel at or above `MAX_WALK_STEPS` gives the same walk outcome as
`MAX_WALK_STEPS` itself: the walk completes within the step cap. -/
theorem walkLoop_fuel_ge (st : LatticeState) (q : List ℚ) :
    ∀ f, maxWalkSteps st ≤ f →
      walkLoop st q f [] (startSimplexId st) st.lastFound
        = walkLoop st q (maxWalkSteps st) [] (startSimplexId st) st.lastFound := by
  have hM : st.simplices.length + 1 ≤ maxWalkSteps st := by
    rw [maxWalkSteps]; split <;> omega
  have key : ∀ d, walkLoop st q (maxWalkSteps st + d) [] (startSimplexId st) st.lastFound
      = walkLoop st q (maxWalkSteps st) [] (startSimplexId st) st.lastFound := by
    intro d
    induction d with
    | zero => rfl
    | succ d ihd =>
      have : maxWalkSteps st + (d + 1) = (maxWalkSteps st + d) + 1 := by omega
      rw [this, walkLoop_fuel_stable st q (maxWalkSteps st + d) [] (startSimplexId st)
        st.lastFound List.nodup_nil (by simp) (by simp; omega), ihd]
  intro f hf
  have : f = maxWalkSteps st + (f - maxWalkSteps st) := by omega
  rw [this, key]

/-- A `findContainingSimplex` call that throws leaves the warm-start cache
member with the value it had on entry. -/
theorem findContainingSimplex_err (st : LatticeState) (q : List ℚ) (e : LatError)
    (c : CacheSimplex) (h : findContainingSimplex st q = (.error e, c)) :
    c = st.lastFound := by
  rw [findContainingSimplex] at h
  cases hv : validateIndexVector st q with
  | error e' => rw [hv] at h; exact (congrArg Prod.snd h).symm
  | ok u =>
    rw [hv] at h
    repeat' split at h
    all_goals try exact (congrArg Prod.snd h).symm
    exact walkLoop_err st q (maxWalkSteps st) [] (startSimplexId st) st.lastFound e c h

/-- A successful `findContainingSimplex` call passed validation, updated the
cache to the found simplex, and its weights are the computed range-checked
barycentric weights of the found simplex. -/
theorem findContainingSimplex_ok (st : LatticeState) (q : List ℚ)
    (fs : FoundSimplex) (c : CacheSimplex)
    (h : findContainingSimplex st q = (.ok fs, c)) :
    c = ⟨some fs.id, fs.weights⟩
      ∧ validateIndexVector st q = .ok ()
      ∧ fs.id < st.simplices.length
      ∧ (st.simplices.getD fs.id []).length = st.numIndex + 1
      ∧ (∀ g ∈ st.simplices.getD fs.id [], g < st.indexVectors.length)
      ∧ calculateBarycentricWeights st.numIndex q
          ((st.simplices.getD fs.id []).map fun g => st.indexVectors.getD g [])
          = .ok fs.weights
      ∧ isInsideWeights fs.weights = true := by
  rw [findContainingSimplex] at h
  cases hv : validateIndexVector st q with
  | error e' =>
    rw [hv] at h
    exact Except.noConfusion (congrArg Prod.fst h)
  | ok u =>
    rw [hv] at h
    repeat' split at h
    all_goals try exact Except.noConfusion (congrArg Prod.fst h)
    obtain ⟨hc, h2, h3, h4, h5, h6⟩ :=
      walkLoop_ok st q (maxWalkSteps st) [] (startSimplexId st) st.lastFound fs c h
    exact ⟨hc, by cases u; rfl, h2, h3, h4, h5, h6⟩

/-! ### Blend lemmas -/

theorem fadd_nan_right (a : FVal) : fadd a .nan = .nan := by
  cases a <;> rfl

theorem wmul_nan (w : ℚ) : wmul w .nan = .nan := rfl

theorem foldl_blend_absorb_nan (idx : ℕ) :
    ∀ (ps : List (OPATTable × ℚ)),
      ps.foldl (fun acc tw => fadd acc (wmul tw.2 (tw.1.data.getD idx (.fin 0)))) .nan
        = .nan := by
  intro ps
  induction ps with
  | nil => rfl
  | cons p ps ih =>
    simp only [List.foldl_cons]
    rw [show fadd .nan (wmul p.2 (p.1.data.getD idx (.fin 0))) = .nan from rfl, ih]

theorem foldl_blend_nan (idx : ℕ) :
    ∀ (ps : List (OPATTable × ℚ)) (acc : FVal) (j : ℕ), j < ps.length →
      ((ps.getD j (OPATTable.empty, 0)).1.data.getD idx (.fin 0) = .nan) →
      ps.foldl (fun acc tw => fadd acc (wmul tw.2 (tw.1.data.getD idx (.fin 0)))) acc
        = .nan := by
  intro ps
  induction ps with
  | nil => intro acc j hj; simp at hj
  | cons p ps ih =>
    intro acc j hj hnan
    cases j with
    | zero =>
      simp only [List.getD_cons_zero] at hnan
      simp only [List.foldl_cons, hnan, wmul_nan, fadd_nan_right]
      exact foldl_blend_absorb_nan idx ps
    | succ j' =>
      simp only [List.getD_cons_succ] at hnan
      simp only [List.foldl_cons]
      exact ih _ j' (by simpa using hj) hnan

theorem foldl_blend_fin (idx : ℕ) :
    ∀ (corners : List OPATTable) (w : List ℚ) (a : ℚ),
      corners.length = w.length →
      (∀ c ∈ corners, (c.data.getD idx (.fin 0)).isFinite = true) →
      (corners.zip w).foldl
          (fun acc tw => fadd acc (wmul tw.2 (tw.1.data.getD idx (.fin 0)))) (.fin a)
        = .fin (a + dotQ w (corners.map fun c => (c.data.getD idx (.fin 0)).finValue)) := by
  intro corners
  induction corners with
  | nil =>
    intro w a _ _
    simp [dotQ_nil_right, List.zip]
  | cons c cs ih =>
    intro w a hlen hfin
    obtain ⟨ww, ws, rfl⟩ : ∃ ww ws, w = ww :: ws := by
      cases w with
      | nil => simp at hlen
      | cons x xs => exact ⟨x, xs, rfl⟩
    obtain ⟨v, hv⟩ : ∃ v, c.data.getD idx (.fin 0) = .fin v := by
      have := hfin c (List.mem_cons_self c cs)
      cases hc : c.data.getD idx (.fin 0) with
      | fin v => exact ⟨v, rfl⟩
      | _ => rw [hc] at this; simp [FVal.isFinite] at this
    simp only [List.zip_cons_cons, List.foldl_cons, hv]
    rw [show fadd (.fin a) (wmul ww (.fin v)) = .fin (a + ww * v) from rfl]
    rw [ih ws (a + ww * v) (by simpa using hlen)
      (fun x hx => hfin x (List.mem_cons_of_mem c hx))]
    simp only [List.map_cons, dotQ_cons, hv, FVal.finValue]
    ring_nf

theorem getD_zip {α β : Type} (l₁ : List α) (l₂ : List β) (j : ℕ) (d₁ : α) (d₂ : β)
    (h₁ : j < l₁.length) (h₂ : j < l₂.length) :
    (l₁.zip l₂).getD j (d₁, d₂) = (l₁.getD j d₁, l₂.getD j d₂) := by
  have hz : j < (l₁.zip l₂).length := by simp [List.length_zip]; omega
  rw [List.getD_eq_getElem _ _ hz, List.getD_eq_getElem _ _ h₁, List.getD_eq_getElem _ _ h₂]
  exact List.getElem_zip

theorem blendCell_nan (corners : List OPATTable) (w : List ℚ) (idx j : ℕ)
    (hj : j < corners.length) (hjw : j < w.length)
    (hnan : (corners.getD j OPATTable.empty).data.getD idx (.fin 0) = .nan) :
    blendCell corners w idx = .nan := by
  rw [blendCell]
  refine foldl_blend_nan idx (corners.zip w) (.fin 0) j (by simp [List.length_zip]; omega) ?_
  rw [getD_zip corners w j OPATTable.empty 0 hj hjw]
  exact hnan

theorem blendCell_fin (corners : List OPATTable) (w : List ℚ) (idx : ℕ)
    (hlen : corners.length = w.length)
    (hfin : ∀ c ∈ corners, (c.data.getD idx (.fin 0)).isFinite = true) :
    blendCell corners w idx
      = .fin (dotQ w (corners.map fun c => (c.data.getD idx (.fin 0)).finValue)) := by
  rw [blendCell, foldl_blend_fin idx corners w 0 hlen hfin]
  ring_nf

/-! ### Corner resolution and per-tag blending -/

theorem resolveCorners_err (st : LatticeState) (key : String) :
    ∀ (gs : List ℕ) (e : LatError), resolveCorners st key gs = .error e →
      e = .cardNotFoundErr ∨ e = .tableNotFoundErr := by
  intro gs
  induction gs with
  | nil => intro e h; rw [resolveCorners] at h; exact absurd h (by simp)
  | cons g gs ih =>
    intro e h
    rw [resolveCorners] at h
    cases hlc : lookupCard st.cards (st.indexVectors.getD g []) with
    | none => simp only [hlc] at h; exact Or.inl (Except.error.inj h).symm
    | some card =>
      simp only [hlc] at h
      cases hlt : lookupTable card.tables key with
      | none => simp only [hlt] at h; exact Or.inr (Except.error.inj h).symm
      | some t =>
        simp only [hlt] at h
        simp only [bind, Except.bind] at h
        cases hrc : resolveCorners st key gs with
        | error e' =>
          simp only [hrc] at h
          exact (Except.error.inj h) ▸ ih e' hrc
        | ok rest => simp only [hrc] at h; exact absurd h (by simp)

theorem resolveCorners_ok (st : LatticeState) (key : String) :
    ∀ (gs : List ℕ) (corners : List OPATTable),
      resolveCorners st key gs = .ok corners →
      corners.length = gs.length
        ∧ ∀ j, j < gs.length →
            ∀ card t, lookupCard st.cards (st.indexVectors.getD (gs.getD j 0) []) = some card →
              lookupTable card.tables key = some t →
              corners.getD j OPATTable.empty = t := by
  intro gs
  induction gs with
  | nil =>
    intro corners h
    rw [resolveCorners] at h
    have : corners = [] := (Except.ok.inj h).symm
    subst this
    exact ⟨rfl, fun j hj => by simp at hj⟩
  | cons g gs ih =>
    intro corners h
    rw [resolveCorners] at h
    cases hlc : lookupCard st.cards (st.indexVectors.getD g []) with
    | none => simp only [hlc] at h; exact absurd h (by simp)
    | some card =>
      simp only [hlc] at h
      cases hlt : lookupTable card.tables key with
      | none => simp only [hlt] at h; exact absurd h (by simp)
      | some t =>
        simp only [hlt] at h
        simp only [bind, Except.bind] at h
        cases hrc : resolveCorners st key gs with
        | error e' => simp only [hrc] at h; exact absurd h (by simp)
        | ok rest =>
          simp only [hrc] at h
          have hcor : corners = t :: rest := (Except.ok.inj h).symm
          subst hcor
          obtain ⟨hlen, hget⟩ := ih rest hrc
          refine ⟨by simp [hlen], fun j hj card' t' hc' ht' => ?_⟩
          cases j with
          | zero =>
            simp only [List.getD_cons_zero]
            simp only [List.getD_cons_zero] at hc'
            rw [hlc] at hc'
            have : card = card' := Option.some.inj hc'
            subst this
            rw [hlt] at ht'
            exact Option.some.inj ht'
          | succ j' =>
            simp only [List.getD_cons_succ]
            simp only [List.getD_cons_succ] at hc'
            exact hget j' (by simpa using hj) card' t' hc' ht'

theorem blendTable_ok (st : LatticeState) (gids : List ℕ) (w : List ℚ)
    (key : String) (base : OPATTable) (bt : OPATTable)
    (h : blendTable st gids w key base = .ok bt) :
    ∃ corners, resolveCorners st key gids = .ok corners
      ∧ bt = { nR := base.nR, nC := base.nC, vsize := base.vsize
               rowValues := base.rowValues.take base.nR
               colValues := base.colValues.take base.nC
               data := (List.range (base.nR * base.nC * base.vsize)).map
                 fun idx => blendCell corners w idx } := by
  rw [blendTable] at h
  simp only [bind, Except.bind] at h
  cases hrc : resolveCorners st key gids with
  | error e => simp only [hrc] at h; exact absurd h (by simp)
  | ok corners =>
    simp only [hrc] at h
    exact ⟨corners, rfl, (Except.ok.inj h).symm⟩

theorem blendTable_err (st : LatticeState) (gids : List ℕ) (w : List ℚ)
    (key : String) (base : OPATTable) (e : LatError)
    (h : blendTable st gids w key base = .error e) :
    e = .cardNotFoundErr ∨ e = .tableNotFoundErr := by
  rw [blendTable] at h
  simp only [bind, Except.bind] at h
  cases hrc : resolveCorners st key gids with
  | error e' =>
    simp only [hrc] at h
    exact (Except.error.inj h) ▸ resolveCorners_err st key gids e' hrc
  | ok corners => simp only [hrc] at h; exact absurd h (by simp)

theorem blendTables_err (st : LatticeState) (gids : List ℕ) (w : List ℚ) :
    ∀ (tables : List (String × OPATTable)) (e : LatError),
      blendTables st gids w tables = .error e →
      e = .cardNotFoundErr ∨ e = .tableNotFoundErr := by
  intro tables
  induction tables with
  | nil => intro e h; rw [blendTables] at h; exact absurd h (by simp)
  | cons kt rest ih =>
    intro e h
    rw [blendTables] at h
    simp only [bind, Except.bind] at h
    cases hbt : blendTable st gids w kt.1 kt.2 with
    | error e' =>
      simp only [hbt] at h
      exact (Except.error.inj h) ▸ blendTable_err st gids w kt.1 kt.2 e' hbt
    | ok t =>
      simp only [hbt] at h
      cases hbts : blendTables st gids w rest with
      | error e' =>
        simp only [hbts] at h
        exact (Except.error.inj h) ▸ ih e' hbts
      | ok ts => simp only [hbts] at h; exact absurd h (by simp)

theorem blendTables_lookup (st : LatticeState) (gids : List ℕ) (w : List ℚ) :
    ∀ (tables : List (String × OPATTable)) (tabs : List (String × OPATTable)),
      blendTables st gids w tables = .ok tabs →
      ∀ (key : String) (base : OPATTable), lookupTable tables key = some base →
        ∃ bt, blendTable st gids w key base = .ok bt ∧ lookupTable tabs key = some bt := by
  intro tables
  induction tables with
  | nil => intro tabs _ key base hl; rw [lookupTable] at hl; exact absurd hl (by simp)
  | cons kt rest ih =>
    intro tabs h key base hl
    rw [blendTables] at h
    simp only [bind, Except.bind] at h
    cases hbt : blendTable st gids w kt.1 kt.2 with
    | error e' => simp only [hbt] at h; exact absurd h (by simp)
    | ok t =>
      simp only [hbt] at h
      cases hbts : blendTables st gids w rest with
      | error e' => simp only [hbts] at h; exact absurd h (by simp)
      | ok ts =>
        simp only [hbts] at h
        have htabs : tabs = (kt.1, t) :: ts := (Except.ok.inj h).symm
        subst htabs
        obtain ⟨k0, t0⟩ := kt
        rw [lookupTable] at hl
        by_cases hk : k0 = key
        · rw [if_pos hk] at hl
          have : t0 = base := Option.some.inj hl
          subst this
          refine ⟨t, by rw [← hk]; exact hbt, ?_⟩
          rw [lookupTable, if_pos hk]
        · rw [if_neg hk] at hl
          obtain ⟨bt, hbt', hlk⟩ := ih ts hbts key base hl
          exact ⟨bt, hbt', by rw [lookupTable, if_neg hk]; exact hlk⟩

/-! ### latticeGet decomposition -/

theorem latticeGet_ok (st : LatticeState) (q : List ℚ) (res : DataCard)
    (c2 : CacheSimplex) (h : latticeGet st q = (.ok res, c2)) :
    ∃ fs baseCard tabs,
      findContainingSimplex st q = (.ok fs, (⟨some fs.id, fs.weights⟩ : CacheSimplex))
        ∧ c2 = (⟨some fs.id, fs.weights⟩ : CacheSimplex)
        ∧ lookupCard st.cards
            (st.indexVectors.getD ((st.simplices.getD fs.id []).getD 0 0) [])
            = some baseCard
        ∧ blendTables st (st.simplices.getD fs.id []) fs.weights baseCard.tables
            = .ok tabs
        ∧ res = ⟨tabs⟩ := by
  rw [latticeGet] at h
  cases hv : validateIndexVector st q with
  | error e => simp only [hv] at h; exact Except.noConfusion (congrArg Prod.fst h)
  | ok u =>
    simp only [hv] at h
    rcases hfind : findContainingSimplex st q with ⟨fr, fc⟩
    cases fr with
    | error e =>
      simp only [hfind] at h
      exact Except.noConfusion (congrArg Prod.fst h)
    | ok fs =>
      simp only [hfind] at h
      cases hlc : lookupCard st.cards
          (st.indexVectors.getD ((st.simplices.getD fs.id []).getD 0 0) []) with
      | none => simp only [hlc] at h; exact Except.noConfusion (congrArg Prod.fst h)
      | some baseCard =>
        simp only [hlc] at h
        cases hbts : blendTables st (st.simplices.getD fs.id []) fs.weights
            baseCard.tables with
        | error e => simp only [hbts] at h; exact Except.noConfusion (congrArg Prod.fst h)
        | ok tabs =>
          simp only [hbts] at h
          obtain ⟨h1, h2⟩ := Prod.mk.inj h
          obtain ⟨hcache, _⟩ := findContainingSimplex_ok st q fs fc hfind
          subst hcache
          exact ⟨fs, baseCard, tabs, rfl, h2.symm, hlc, hbts, (Except.ok.inj h1).symm⟩

theorem latticeGet_err (st : LatticeState) (q : List ℚ) (e : LatError)
    (c2 : CacheSimplex) (h : latticeGet st q = (.error e, c2))
    (h1 : e ≠ .cardNotFoundErr) (h2 : e ≠ .tableNotFoundErr) :
    c2 = st.lastFound := by
  rw [latticeGet] at h
  cases hv : validateIndexVector st q with
  | error e' => simp only [hv] at h; exact (congrArg Prod.snd h).symm
  | ok u =>
    simp only [hv] at h
    rcases hfind : findContainingSimplex st q with ⟨fr, fc⟩
    cases fr with
    | error e' =>
      simp only [hfind] at h
      obtain ⟨hfst, hsnd⟩ := Prod.mk.inj h
      rw [← hsnd]
      exact findContainingSimplex_err st q e' fc hfind
    | ok fs =>
      simp only [hfind] at h
      cases hlc : lookupCard st.cards
          (st.indexVectors.getD ((st.simplices.getD fs.id []).getD 0 0) []) with
      | none =>
        simp only [hlc] at h
        exact absurd (Except.error.inj (congrArg Prod.fst h)).symm h1
      | some baseCard =>
        simp only [hlc] at h
        cases hbts : blendTables st (st.simplices.getD fs.id []) fs.weights
            baseCard.tables with
        | error e' =>
          simp only [hbts] at h
          have he : e' = e := Except.error.inj (congrArg Prod.fst h)
          rcases blendTables_err st (st.simplices.getD fs.id []) fs.weights
              baseCard.tables e' hbts with h' | h'
          · exact absurd (he ▸ h') h1
          · exact absurd (he ▸ h') h2
        | ok tabs =>
          simp only [hbts] at h
          exact Except.noConfusion (congrArg Prod.fst h)

/-! ## Claim theorems -/

/-- C2: for every query the interpolation engine accepts (a location call
that returns a result rather than failing), the barycentric-weight vector it
computes has `N + 1` entries, sums to 1.0 within 1e-8, and every individual
weight lies in `[-1e-8, 1 + 1e-8]`. -/
theorem weights_sum_and_range (st : LatticeState) (q : List ℚ)
    (fs : FoundSimplex) (c : CacheSimplex)
    (h : findContainingSimplex st q = (.ok fs, c)) :
    fs.weights.length = st.numIndex + 1
      ∧ |fs.weights.sum - 1| ≤ 1 / 100000000
      ∧ ∀ x ∈ fs.weights, -(1 / 100000000 : ℚ) ≤ x ∧ x ≤ 1 + 1 / 100000000 := by
  obtain ⟨_, _, _, _, _, hcalc, hin⟩ := findContainingSimplex_ok st q fs c h
  obtain ⟨hlen, hsum⟩ := calcBW_sum _ _ _ _ hcalc
  refine ⟨hlen, by rw [hsum]; norm_num, ?_⟩
  intro x hx
  rw [isInsideWeights] at hin
  have hx' := List.all_eq_true.mp hin x hx
  simp only [Bool.not_eq_true', Bool.or_eq_false_iff, decide_eq_false_iff_not,
    not_lt, baryTol] at hx'
  exact ⟨hx'.1, hx'.2⟩

/-- Witness for C2 at a concrete lattice and query: the engine locates the
vertex query (0, 0) in simplex 0 with weights (1, 0, 0). -/
theorem weights_sum_and_range_witness :
    (([1, 0, 0] : List ℚ)).length = finLattice.numIndex + 1
      ∧ |(([1, 0, 0] : List ℚ)).sum - 1| ≤ 1 / 100000000
      ∧ ∀ x ∈ ([1, 0, 0] : List ℚ), -(1 / 100000000 : ℚ) ≤ x ∧ x ≤ 1 + 1 / 100000000 := by
  have h : findContainingSimplex finLattice [0, 0]
      = (.ok ⟨0, [1, 0, 0]⟩, ⟨some 0, [1, 0, 0]⟩) := by
    norm_num [findContainingSimplex, validateIndexVector, dimMin, dimMax, finLattice,
      mkTable12, maxWalkSteps, startSimplexId, walkLoop, walkStep,
      calculateBarycentricWeights, baryRows, gelim, findPivot, elimTail, dotQ,
      isInsideWeights, baryTol, List.range, List.range.loop]
  exact weights_sum_and_range finLattice [0, 0] ⟨0, [1, 0, 0]⟩ ⟨some 0, [1, 0, 0]⟩ h

/-- C8: the point-location walk terminates within the step cap — running it
with any budget at or above `MAX_WALK_STEPS` gives the same outcome as the
cap itself, where `MAX_WALK_STEPS = 2 * |simplices| + 10` for a non-empty
triangulation — and it fails with the internal-error throws when a simplex
is revisited (cycle) or when the cap is exhausted without a containing
simplex. -/
theorem walk_bounded_termination (st : LatticeState) (q : List ℚ) :
    (∀ f, maxWalkSteps st ≤ f →
        walkLoop st q f [] (startSimplexId st) st.lastFound
          = walkLoop st q (maxWalkSteps st) [] (startSimplexId st) st.lastFound)
      ∧ (0 < st.simplices.length → maxWalkSteps st = 2 * st.simplices.length + 10)
      ∧ (∀ (f : ℕ) (visited : List ℕ) (cur : ℕ) (cache : CacheSimplex),
          cur < st.simplices.length → cur ∈ visited →
          walkLoop st q (f + 1) visited cur cache = (.error .cycleErr, cache))
      ∧ (∀ (visited : List ℕ) (cur : ℕ) (cache : CacheSimplex),
          walkLoop st q 0 visited cur cache = (.error .maxStepsErr, cache)) := by
  refine ⟨walkLoop_fuel_ge st q, ?_, ?_, fun V cur cache => rfl⟩
  · intro hpos
    rw [maxWalkSteps, if_pos hpos]
    ring
  · intro f V cur cache hlt hmem
    rw [walkLoop]
    have hws : walkStep st q V cur cache = .inl (.error .cycleErr, cache) := by
      rw [walkStep, if_neg (by omega), if_pos hmem]
    rw [hws]

/-- Witness for C8 at a concrete lattice: budget 13 agrees with the cap 12,
revisiting simplex 0 throws the cycle error, and a zero budget throws the
step-cap error. -/
theorem walk_bounded_termination_witness :
    walkLoop finLattice [0, 0] 13 [] (startSimplexId finLattice) finLattice.lastFound
        = walkLoop finLattice [0, 0] (maxWalkSteps finLattice) []
            (startSimplexId finLattice) finLattice.lastFound
      ∧ maxWalkSteps finLattice = 2 * finLattice.simplices.length + 10
      ∧ walkLoop finLattice [0, 0] 1 [0] 0 ⟨none, []⟩ = (.error .cycleErr, ⟨none, []⟩)
      ∧ walkLoop finLattice [0, 0] 0 [] 0 ⟨none, []⟩ = (.error .maxStepsErr, ⟨none, []⟩) := by
  refine ⟨(walk_bounded_termination finLattice [0, 0]).1 13 ?_,
    (walk_bounded_termination finLattice [0, 0]).2.1 ?_,
    (walk_bounded_termination finLattice [0, 0]).2.2.1 0 [0] 0 ⟨none, []⟩ ?_ ?_,
    (walk_bounded_termination finLattice [0, 0]).2.2.2 [] 0 ⟨none, []⟩⟩
  · norm_num [maxWalkSteps, finLattice]
  · norm_num [finLattice]
  · norm_num [finLattice]
  · norm_num

/-- C9: a location failure leaves the warm-start cache `m_lastFoundSimplex`
exactly as it was — a failed `get` changes it only through a successful
location (the two post-location lookup throws are the only failures that can
follow a successful, cache-updating location), and only a successful
location updates it, to the found simplex. -/
theorem failed_location_preserves_cache (st : LatticeState) (q : List ℚ) :
    (∀ e c2, latticeGet st q = (.error e, c2) →
        e ≠ .cardNotFoundErr → e ≠ .tableNotFoundErr → c2 = st.lastFound)
      ∧ (∀ e c, findContainingSimplex st q = (.error e, c) → c = st.lastFound)
      ∧ (∀ fs c, findContainingSimplex st q = (.ok fs, c) →
          c = ⟨some fs.id, fs.weights⟩) :=
  ⟨fun e c2 h h1 h2 => latticeGet_err st q e c2 h h1 h2,
    fun e c h => findContainingSimplex_err st q e c h,
    fun fs c h => (findContainingSimplex_ok st q fs c h).1⟩

/-- Witness for C9 at a concrete lattice: the out-of-hull query (1, 1) makes
`get` fail with the out-of-hull throw and the cache keeps its initial
sentinel value. -/
theorem failed_location_preserves_cache_witness :
    latticeGet finLattice [1, 1] = (.error .outOfHullErr, ⟨none, []⟩)
      ∧ (⟨none, []⟩ : CacheSimplex) = finLattice.lastFound := by
  have h : latticeGet finLattice [1, 1] = (.error .outOfHullErr, ⟨none, []⟩) := by
    norm_num [latticeGet, findContainingSimplex, validateIndexVector, dimMin, dimMax,
      finLattice, mkTable12, maxWalkSteps, startSimplexId, walkLoop, walkStep,
      calculateBarycentricWeights, baryRows, gelim, findPivot, elimTail, dotQ,
      isInsideWeights, mostNegativeIndex, baryTol, List.range, List.range.loop]
  exact ⟨h, (failed_location_preserves_cache finLattice [1, 1]).1 .outOfHullErr
    ⟨none, []⟩ h (by simp) (by simp)⟩

theorem getD_map_lt {α β : Type} (f : α → β) (l : List α) (k : ℕ)
    (h : k < l.length) (d : β) (d' : α) :
    (l.map f).getD k d = f (l.getD k d') := by
  rw [List.getD_eq_getElem _ _ (by simpa using h), List.getD_eq_getElem _ _ h]
  simp

theorem getD_mem_of_lt {α : Type} (l : List α) (k : ℕ) (h : k < l.length) (d : α) :
    l.getD k d ∈ l := by
  rw [List.getD_eq_getElem _ _ h]
  exact List.getElem_mem h

/-- C1 (amended): exactness at a stored vertex, qualified by the corners'
special values.  If the walk locates for the query `q` a simplex whose
corner `k` is the stored ParamKey vector equal to `q`, then the computed
weights are exactly the 0/1 indicator of corner `k`, and the synthesized
table agrees with the stored table `file.get(q).get(tag)` at every cell at
which all corner tables hold finite values — while at any cell at which the
stored table holds NaN the synthesized cell is NaN.  (Unqualified
elementwise agreement fails: `0 * NaN = NaN` propagates a sibling corner's
NaN into the synthesized table, see the counterexample.) -/
theorem exact_vertex_amended (st : LatticeState) (q : List ℚ)
    (fs : FoundSimplex) (k : ℕ) (key : String)
    (storedCard baseCard : DataCard) (stored base : OPATTable)
    (res : DataCard) (c2 : CacheSimplex)
    (hres : latticeGet st q = (.ok res, c2))
    (hfind : findContainingSimplex st q = (.ok fs, (⟨some fs.id, fs.weights⟩ : CacheSimplex)))
    (hk : k < (st.simplices.getD fs.id []).length)
    (hq : st.indexVectors.getD ((st.simplices.getD fs.id []).getD k 0) [] = q)
    (hstoredCard : lookupCard st.cards q = some storedCard)
    (hstored : lookupTable storedCard.tables key = some stored)
    (hbaseCard : lookupCard st.cards
        (st.indexVectors.getD ((st.simplices.getD fs.id []).getD 0 0) [])
        = some baseCard)
    (hbase : lookupTable baseCard.tables key = some base) :
    fs.weights = indicatorW k (st.numIndex + 1)
      ∧ ∃ corners resTable,
          resolveCorners st key (st.simplices.getD fs.id []) = .ok corners
            ∧ corners.getD k OPATTable.empty = stored
            ∧ lookupTable res.tables key = some resTable
            ∧ ∀ idx, idx < base.nR * base.nC * base.vsize →
                ((∀ c ∈ corners, (c.data.getD idx (.fin 0)).isFinite = true) →
                    resTable.data.getD idx (.fin 0) = stored.data.getD idx (.fin 0))
                  ∧ (stored.data.getD idx (.fin 0) = .nan →
                    resTable.data.getD idx (.fin 0) = .nan) := by
  obtain ⟨fs', baseCard', tabs, hfind', hc2, hlc', hbts, hres'⟩ :=
    latticeGet_ok st q res c2 hres
  obtain rfl : fs = fs' := by
    have := hfind.symm.trans hfind'
    exact Except.ok.inj (congrArg Prod.fst this)
  obtain rfl : baseCard = baseCard' := Option.some.inj (hbaseCard.symm.trans hlc')
  obtain ⟨_, _, _, hglen, hgall, hcalc, _⟩ := findContainingSimplex_ok st q fs _ hfind
  have hmaplen : ((st.simplices.getD fs.id []).map
      fun g => st.indexVectors.getD g []).length = (st.simplices.getD fs.id []).length := by
    simp
  have hkv : k < ((st.simplices.getD fs.id []).map
      fun g => st.indexVectors.getD g []).length := by omega
  have hvq : ((st.simplices.getD fs.id []).map
      fun g => st.indexVectors.getD g []).getD k [] = q := by
    rw [getD_map_lt _ _ k hk [] 0]
    exact hq
  have hweights : fs.weights = indicatorW k (st.numIndex + 1) :=
    calcBW_vertex st.numIndex q _ fs.weights k hkv hvq hcalc
  refine ⟨hweights, ?_⟩
  obtain ⟨bt, hbt, hlkup⟩ :=
    blendTables_lookup st (st.simplices.getD fs.id []) fs.weights
      baseCard.tables tabs hbts key base hbase
  obtain ⟨corners, hcorners, hbtstruct⟩ :=
    blendTable_ok st (st.simplices.getD fs.id []) fs.weights key base bt hbt
  obtain ⟨hclen, hcget⟩ := resolveCorners_ok st key (st.simplices.getD fs.id []) corners hcorners
  have hcstored : corners.getD k OPATTable.empty = stored := by
    refine hcget k hk storedCard stored ?_ hstored
    rw [hq]
    exact hstoredCard
  have hwlen : fs.weights.length = st.numIndex + 1 := by
    rw [hweights, indicatorW_length]
  have hcornlen : corners.length = st.numIndex + 1 := by
    rw [hclen, hglen]
  refine ⟨corners, bt, hcorners, hcstored, by rw [hres']; exact hlkup, ?_⟩
  intro idx hidx
  have hcell : bt.data.getD idx (.fin 0) = blendCell corners fs.weights idx := by
    rw [hbtstruct]
    exact getD_map_range _ _ idx hidx _
  constructor
  · intro hfin
    rw [hcell, blendCell_fin corners fs.weights idx (by omega) hfin, hweights]
    have hvalslen : (corners.map fun c => (c.data.getD idx (.fin 0)).finValue).length
        = st.numIndex + 1 := by simp [hcornlen]
    rw [dotQ_indicator_left (st.numIndex + 1) _ k hvalslen (by omega)]
    rw [getD_map_lt _ _ k (by omega) 0 OPATTable.empty, hcstored]
    have hsf := hfin stored (hcstored ▸ getD_mem_of_lt corners k (by omega) OPATTable.empty)
    cases hsc : stored.data.getD idx (.fin 0) with
    | fin v => simp [FVal.finValue]
    | nan => rw [hsc] at hsf; simp [FVal.isFinite] at hsf
    | pinf => rw [hsc] at hsf; simp [FVal.isFinite] at hsf
    | ninf => rw [hsc] at hsf; simp [FVal.isFinite] at hsf
  · intro hnan
    rw [hcell]
    exact blendCell_nan corners fs.weights idx k (by omega) (by omega)
      (by rw [hcstored]; exact hnan)

/-- C1 counterexample: the unqualified elementwise-exactness reading fails.
At the stored ParamKey (0,0) of `cexLattice` the located weights are the
exact indicator `[1, 0, 0]`, yet the synthesized `data` table is
`[NaN, NaN]` while the stored table is `[5, NaN]`: the sibling corner
(1,0) holds NaN in cell 0, and `0 * NaN = NaN` contaminates the sum, so
cell 0 fails the comparison (it is NaN instead of within 1e-8 of 5). -/
theorem exact_vertex_counterexample :
    latticeGet cexLattice [0, 0]
        = (.ok ⟨[("data", mkTable12 .nan .nan)]⟩, ⟨some 0, [1, 0, 0]⟩)
      ∧ lookupCard cexLattice.cards [0, 0]
        = some ⟨[("data", mkTable12 (.fin 5) .nan)]⟩
      ∧ cellApproxEq ((mkTable12 .nan .nan).data.getD 0 (.fin 0))
          ((mkTable12 (.fin 5) .nan).data.getD 0 (.fin 0)) = false := by
  refine ⟨?_, by norm_num [lookupCard, cexLattice],
    by norm_num [cellApproxEq, mkTable12]⟩
  norm_num [latticeGet, findContainingSimplex, validateIndexVector, dimMin, dimMax,
    cexLattice, mkTable12, maxWalkSteps, startSimplexId, walkLoop, walkStep,
    calculateBarycentricWeights, baryRows, gelim, findPivot, elimTail, dotQ,
    isInsideWeights, mostNegativeIndex, baryTol, List.range, List.range.loop,
    lookupCard, lookupTable, blendTables, blendTable, resolveCorners, blendCell,
    fadd, wmul, List.zip, List.zipWith, List.foldl, List.take,
    Bind.bind, Except.bind]

/-- Witness for C1 (amended) at `finLattice`, whose corners all hold finite
values in cell 0 and NaN in cell 1: the weights are the indicator of the
matched corner, the synthesized `data` table holds the stored `5` exactly
at cell 0 and NaN at cell 1. -/
theorem exact_vertex_amended_witness :
    ([1, 0, 0] : List ℚ) = indicatorW 0 (finLattice.numIndex + 1)
      ∧ ∃ corners resTable,
          resolveCorners finLattice "data" (finLattice.simplices.getD 0 [])
              = .ok corners
            ∧ corners.getD 0 OPATTable.empty = mkTable12 (.fin 5) .nan
            ∧ lookupTable [("data", mkTable12 (.fin 5) .nan)] "data" = some resTable
            ∧ ∀ idx, idx < (mkTable12 (.fin 5) .nan).nR * (mkTable12 (.fin 5) .nan).nC
                  * (mkTable12 (.fin 5) .nan).vsize →
                ((∀ c ∈ corners, (c.data.getD idx (.fin 0)).isFinite = true) →
                    resTable.data.getD idx (.fin 0)
                      = (mkTable12 (.fin 5) .nan).data.getD idx (.fin 0))
                  ∧ ((mkTable12 (.fin 5) .nan).data.getD idx (.fin 0) = .nan →
                    resTable.data.getD idx (.fin 0) = .nan) := by
  have hres : latticeGet finLattice [0, 0]
      = (.ok ⟨[("data", mkTable12 (.fin 5) .nan)]⟩, ⟨some 0, [1, 0, 0]⟩) := by
    norm_num [latticeGet, findContainingSimplex, validateIndexVector, dimMin, dimMax,
      finLattice, mkTable12, maxWalkSteps, startSimplexId, walkLoop, walkStep,
      calculateBarycentricWeights, baryRows, gelim, findPivot, elimTail, dotQ,
      isInsideWeights, mostNegativeIndex, baryTol, List.range, List.range.loop,
      lookupCard, lookupTable, blendTables, blendTable, resolveCorners, blendCell,
      fadd, wmul, List.zip, List.zipWith, List.foldl, List.take,
      Bind.bind, Except.bind]
  have hfind : findContainingSimplex finLattice [0, 0]
      = (.ok ⟨0, [1, 0, 0]⟩, (⟨some 0, [1, 0, 0]⟩ : CacheSimplex)) := by
    norm_num [findContainingSimplex, validateIndexVector, dimMin, dimMax, finLattice,
      mkTable12, maxWalkSteps, startSimplexId, walkLoop, walkStep,
      calculateBarycentricWeights, baryRows, gelim, findPivot, elimTail, dotQ,
      isInsideWeights, baryTol, List.range, List.range.loop]
  exact exact_vertex_amended finLattice [0, 0] ⟨0, [1, 0, 0]⟩ 0 "data"
    ⟨[("data", mkTable12 (.fin 5) .nan)]⟩ ⟨[("data", mkTable12 (.fin 5) .nan)]⟩
    (mkTable12 (.fin 5) .nan) (mkTable12 (.fin 5) .nan)
    ⟨[("data", mkTable12 (.fin 5) .nan)]⟩ ⟨some 0, [1, 0, 0]⟩
    hres hfind (by norm_num [finLattice]) (by norm_num [finLattice])
    (by norm_num [lookupCard, finLattice]) (by norm_num [lookupTable])
    (by norm_num [lookupCard, finLattice]) (by norm_num [lookupTable])

theorem imageElem_neg (p : ℤ) (v : ℚ) (h : qtrunc (v * (10 : ℚ) ^ p) < 0) :
    imageElem p v = .error .invalidArgument := by
  unfold imageElem round_to_nearest_multiple_of_10
  rw [if_neg (by omega), if_pos h]

theorem imageElem_nonneg (p : ℤ) (v : ℚ) (h : 0 ≤ qtrunc (v * (10 : ℚ) ^ p)) :
    imageElem p v = .ok ((qtrunc (v * (10 : ℚ) ^ p) + 5) / 10 * 10) := by
  unfold imageElem round_to_nearest_multiple_of_10
  by_cases h0 : qtrunc (v * (10 : ℚ) ^ p) = 0
  · rw [if_pos h0, h0]
    norm_num
  · rw [if_neg h0, if_neg (by omega)]

theorem imageList_ok (p : ℤ) :
    ∀ (vec : List ℚ) (imgs : List ℤ), imageList p vec = .ok imgs →
      imgs.length = vec.length
        ∧ ∀ i, i < vec.length →
            0 ≤ qtrunc (vec.getD i 0 * (10 : ℚ) ^ p)
              ∧ imgs.getD i 0 = (qtrunc (vec.getD i 0 * (10 : ℚ) ^ p) + 5) / 10 * 10 := by
  intro vec
  induction vec with
  | nil =>
    intro imgs h
    rw [imageList] at h
    have himgs : imgs = [] := (Except.ok.inj h).symm
    subst himgs
    exact ⟨rfl, fun i hi => absurd hi (by simp)⟩
  | cons v vs ih =>
    intro imgs h
    rw [imageList] at h
    simp only [bind, Except.bind] at h
    by_cases hx : qtrunc (v * (10 : ℚ) ^ p) < 0
    · simp only [imageElem_neg p v hx] at h
      exact Except.noConfusion h
    · have hx' : 0 ≤ qtrunc (v * (10 : ℚ) ^ p) := le_of_not_lt hx
      simp only [imageElem_nonneg p v hx'] at h
      cases hrest : imageList p vs with
      | error e =>
        simp only [hrest] at h
        exact Except.noConfusion h
      | ok rest =>
        simp only [hrest] at h
        have himgs : imgs = (qtrunc (v * (10 : ℚ) ^ p) + 5) / 10 * 10 :: rest :=
          (Except.ok.inj h).symm
        subst himgs
        obtain ⟨hlen, hget⟩ := ih rest hrest
        refine ⟨by simp [hlen], fun i hi => ?_⟩
        cases i with
        | zero =>
          simp only [List.getD_cons_zero]
          exact ⟨hx', trivial⟩
        | succ j =>
          simp only [List.getD_cons_succ]
          exact hget j (by simpa using hi)

theorem imageList_error (p : ℤ) :
    ∀ vec : List ℚ,
      (∃ i, i < vec.length ∧ qtrunc (vec.getD i 0 * (10 : ℚ) ^ p) < 0)
        ↔ imageList p vec = .error .invalidArgument := by
  intro vec
  induction vec with
  | nil =>
    refine iff_of_false ?_ ?_
    · rintro ⟨i, hi, _⟩
      exact absurd hi (by simp)
    · rw [imageList]
      exact fun h => Except.noConfusion h
  | cons v vs ih =>
    rw [imageList]
    simp only [bind, Except.bind]
    by_cases hx : qtrunc (v * (10 : ℚ) ^ p) < 0
    · simp only [imageElem_neg p v hx]
      exact iff_of_true ⟨0, by simp, by simpa using hx⟩ trivial
    · have hx' : 0 ≤ qtrunc (v * (10 : ℚ) ^ p) := le_of_not_lt hx
      simp only [imageElem_nonneg p v hx']
      cases hrest : imageList p vs with
      | error e =>
        constructor
        · rintro ⟨i, hi, hneg⟩
          cases i with
          | zero => exact absurd (by simpa using hneg) hx
          | succ j =>
            have := ih.mp ⟨j, by simpa using hi, by simpa using hneg⟩
            rw [hrest] at this
            exact this
        · intro h
          have hvs : imageList p vs = .error .invalidArgument := by
            rw [hrest]; exact h
          obtain ⟨j, hj, hneg⟩ := ih.mpr hvs
          exact ⟨j + 1, by simpa using hj, by simpa using hneg⟩
      | ok rest =>
        refine iff_of_false ?_ (fun h => Except.noConfusion h)
        rintro ⟨i, hi, hneg⟩
        cases i with
        | zero => exact absurd (by simpa using hneg) hx
        | succ j =>
          have := ih.mp ⟨j, by simpa using hi, by simpa using hneg⟩
          rw [hrest] at this
          exact Except.noConfusion this

/-- C3 counterexample: construction does NOT fail for every negative input
value.  The value `-1e-9` is negative, yet at precision 8 its scaled
truncation is `trunc(-0.1) = 0`, which passes the `value < 0` check inside
`round_to_nearest_multiple_of_power_of_10`, so the constructor succeeds
and stores integer image `[0]`. -/
theorem paramkey_negative_accepted :
    fivOfVector [-(1 / 1000000000 : ℚ)] 8
        = .ok ⟨[-(1 / 1000000000)], [0], 8, true⟩
      ∧ (-(1 / 1000000000 : ℚ)) < 0 := by
  constructor
  · norm_num [fivOfVector, imageList, imageElem, qtrunc,
      round_to_nearest_multiple_of_10, Bind.bind, Except.bind, Except.map]
  · norm_num

/-- C3 (amended): for every ParamKey constructed from values `vec` at
precision `p` (`1 ≤ p ≤ 13`, `vec` non-empty), integer-image element `i`
equals `((trunc(vec[i] * 10^p) + 5) / 10) * 10` with integer division, and
construction fails with `InvalidArgument` exactly when some SCALED
TRUNCATION `trunc(vec[i] * 10^p)` is negative — not whenever some input
value is negative (small negative values scale-truncate to 0 and are
accepted, see the counterexample). -/
theorem paramkey_image_formula (vec : List ℚ) (p : ℤ)
    (hp1 : 0 < p) (hp2 : p < 14) (hne : vec ≠ []) :
    (∀ k, fivOfVector vec p = .ok k →
        k.vectorInt.length = vec.length
          ∧ ∀ i, i < vec.length →
              0 ≤ qtrunc (vec.getD i 0 * (10 : ℚ) ^ p)
                ∧ k.vectorInt.getD i 0
                    = (qtrunc (vec.getD i 0 * (10 : ℚ) ^ p) + 5) / 10 * 10)
      ∧ (fivOfVector vec p = .error .invalidArgument
          ↔ ∃ i, i < vec.length ∧ qtrunc (vec.getD i 0 * (10 : ℚ) ^ p) < 0) := by
  have hg1 : ¬ p ≤ 0 := by omega
  have hg2 : ¬ (14 : ℤ) ≤ p := by omega
  constructor
  · intro k h
    rw [fivOfVector, if_neg hg1, if_neg hg2, if_neg hne] at h
    cases himg : imageList p vec with
    | error e =>
      rw [himg] at h
      simp only [Except.map] at h
      exact Except.noConfusion h
    | ok imgs =>
      rw [himg] at h
      simp only [Except.map] at h
      have hk : k = ⟨vec, imgs, p, true⟩ := (Except.ok.inj h).symm
      subst hk
      exact imageList_ok p vec imgs himg
  · rw [fivOfVector, if_neg hg1, if_neg hg2, if_neg hne]
    cases himg : imageList p vec with
    | error e =>
      have hiff := imageList_error p vec
      rw [himg] at hiff
      simp only [Except.map]
      constructor
      · intro h
        have he : e = .invalidArgument := Except.error.inj h
        exact hiff.mpr (by rw [he])
      · intro hex
        have he : e = .invalidArgument := Except.error.inj (hiff.mp hex)
        rw [he]
    | ok imgs =>
      simp only [Except.map]
      refine iff_of_false (fun h => Except.noConfusion h) (fun hex => ?_)
      have := (imageList_error p vec).mp hex
      rw [himg] at this
      exact Except.noConfusion this

/-- Witness for C3 (amended) at the concrete key built from `[1.5]` at
precision 8: the stored image element is `((trunc(1.5 * 10^8) + 5) / 10) * 10
= 150000000`. -/
theorem paramkey_image_formula_witness :
    (⟨[(3 / 2 : ℚ)], [150000000], 8, true⟩ : FloatIndexVector).vectorInt.getD 0 0
        = (qtrunc ((3 / 2 : ℚ) * (10 : ℚ) ^ (8 : ℤ)) + 5) / 10 * 10 := by
  have hok : fivOfVector [(3 / 2 : ℚ)] 8 = .ok ⟨[(3 / 2 : ℚ)], [150000000], 8, true⟩ := by
    norm_num [fivOfVector, imageList, imageElem, qtrunc,
      round_to_nearest_multiple_of_10, Bind.bind, Except.bind, Except.map]
  exact (((paramkey_image_formula [(3 / 2 : ℚ)] 8 (by norm_num) (by norm_num)
      (by simp)).1 _ hok).2 0 (by simp)).2

/-- C4 (code bug): `initialize()` (indexVector.cpp lines 166-174) stores the
doubles and sets the flag but never runs `setupVecs`, so `m_vectorInt`
stays empty; `operator==` loops over the LEFT operand's `m_vectorInt`, so
for an `initialize`-built key the elementwise check is vacuous and two keys
holding different values (here 1.5 and 2.5) compare equal.  This refutes
the claim's "iff ... their integer images are elementwise equal". -/
theorem paramkey_eq_ignores_values_after_initialize :
    fivViaInit [(3 / 2 : ℚ)] 8 = .ok ⟨[(3 / 2 : ℚ)], [], 8, true⟩
      ∧ fivOfVector [(5 / 2 : ℚ)] 8 = .ok ⟨[(5 / 2 : ℚ)], [250000000], 8, true⟩
      ∧ fivBeq ⟨[(3 / 2 : ℚ)], [], 8, true⟩ ⟨[(5 / 2 : ℚ)], [250000000], 8, true⟩ = true
      ∧ (3 / 2 : ℚ) ≠ (5 / 2 : ℚ)
      ∧ ([] : List ℤ) ≠ [250000000] := by
  refine ⟨?_, ?_, ?_, by norm_num, by simp⟩
  · norm_num [fivViaInit]
  · norm_num [fivOfVector, imageList, imageElem, qtrunc,
      round_to_nearest_multiple_of_10, Bind.bind, Except.bind, Except.map]
  · rfl

theorem fivOfVector_ok (vec : List ℚ) (p : ℤ) (k : FloatIndexVector)
    (h : fivOfVector vec p = .ok k) :
    k.vector = vec ∧ k.precision = p ∧ k.inited = true
      ∧ imageList p vec = .ok k.vectorInt := by
  rw [fivOfVector] at h
  split at h
  · exact Except.noConfusion h
  split at h
  · exact Except.noConfusion h
  split at h
  · exact Except.noConfusion h
  cases himg : imageList p vec with
  | error e =>
    rw [himg] at h
    simp only [Except.map] at h
    exact Except.noConfusion h
  | ok imgs =>
    rw [himg] at h
    simp only [Except.map] at h
    have hk : k = ⟨vec, imgs, p, true⟩ := (Except.ok.inj h).symm
    subst hk
    exact ⟨rfl, rfl, rfl, rfl⟩

/-- C10: for ParamKeys built by the value-vector constructor, `operator==`
returning true implies equal hashes, for every hash function of the
serialised bytes: equality forces the integer images to agree elementwise
over the left key's image (which for a constructor-built key spans the whole
vector, so the images are equal as lists), and `hash` reads exactly the
bytes of `m_vectorInt`. -/
theorem paramkey_hash_consistent (h64 : List ℕ → ℕ)
    (aVec bVec : List ℚ) (ap bp : ℤ) (a b : FloatIndexVector)
    (ha : fivOfVector aVec ap = .ok a) (hb : fivOfVector bVec bp = .ok b)
    (heq : fivBeq a b = true) :
    fivHash h64 a = fivHash h64 b := by
  obtain ⟨hav, -, -, himg_a⟩ := fivOfVector_ok aVec ap a ha
  obtain ⟨hbv, -, -, himg_b⟩ := fivOfVector_ok bVec bp b hb
  have hla : a.vectorInt.length = aVec.length := (imageList_ok ap aVec a.vectorInt himg_a).1
  have hlb : b.vectorInt.length = bVec.length := (imageList_ok bp bVec b.vectorInt himg_b).1
  simp only [fivBeq, Bool.and_eq_true, beq_iff_eq, List.all_eq_true, List.mem_range] at heq
  obtain ⟨⟨⟨⟨hia, hib⟩, hlen⟩, hall⟩, hprec⟩ := heq
  have hlab : a.vectorInt.length = b.vectorInt.length := by
    rw [hla, hlb, ← hav, ← hbv]
    exact hlen
  have hint : a.vectorInt = b.vectorInt := by
    apply List.ext_getElem hlab
    intro i h1 h2
    have hi := hall i h1
    rw [List.getD_eq_getElem _ _ h1, List.getD_eq_getElem _ _ h2] at hi
    exact hi
  unfold fivHash fivSerialize
  rw [hint]

/-- Witness for C10: two keys built from the distinct vectors `[1.5]` and
`[1.50000001]` at precision 8 share the integer image `[150000000]`, compare
equal, and hash alike. -/
theorem paramkey_hash_consistent_witness :
    fivHash (fun l => l.length) ⟨[(3 / 2 : ℚ)], [150000000], 8, true⟩
        = fivHash (fun l => l.length)
            ⟨[(150000001 / 100000000 : ℚ)], [150000000], 8, true⟩ := by
  have hoka : fivOfVector [(3 / 2 : ℚ)] 8 = .ok ⟨[(3 / 2 : ℚ)], [150000000], 8, true⟩ := by
    norm_num [fivOfVector, imageList, imageElem, qtrunc,
      round_to_nearest_multiple_of_10, Bind.bind, Except.bind, Except.map]
  have hokb : fivOfVector [(150000001 / 100000000 : ℚ)] 8
      = .ok ⟨[(150000001 / 100000000 : ℚ)], [150000000], 8, true⟩ := by
    norm_num [fivOfVector, imageList, imageElem, qtrunc,
      round_to_nearest_multiple_of_10, Bind.bind, Except.bind, Except.map]
  exact paramkey_hash_consistent (fun l => l.length)
    [(3 / 2 : ℚ)] [(150000001 / 100000000 : ℚ)] 8 8 _ _ hoka hokb (by rfl)

theorem getD_append_left {α : Type} (l l' : List α) (n : ℕ) (d : α) (h : n < l.length) :
    (l ++ l').getD n d = l.getD n d := by
  rw [List.getD_eq_getElem _ _ (by simp; omega), List.getD_eq_getElem _ _ h]
  rw [List.getElem_append_left]

theorem getD_append_right' {α : Type} (l l' : List α) (n : ℕ) (d : α)
    (h : l.length ≤ n) (h2 : n < l.length + l'.length) :
    (l ++ l').getD n d = l'.getD (n - l.length) d := by
  rw [List.getD_eq_getElem _ _ (by simp; omega), List.getD_eq_getElem _ _ (by omega)]
  rw [List.getElem_append_right h]

theorem flatMap_range'_length {α : Type} (f : ℕ → ℕ → α) (b m : ℕ) :
    ∀ (n a : ℕ),
      ((List.range' a n).flatMap fun i => (List.range' b m).map (f i)).length = n * m := by
  intro n
  induction n with
  | zero => intro a; simp
  | succ k ih =>
    intro a
    rw [List.range'_succ, List.flatMap_cons]
    simp only [List.length_append, List.length_map, List.length_range']
    rw [ih (a + 1)]
    ring

theorem flatMap_range'_getD {α : Type} (f : ℕ → ℕ → α) (b m : ℕ) (d : α) :
    ∀ (n a i j : ℕ), i < n → j < m →
      (((List.range' a n).flatMap fun i => (List.range' b m).map (f i)).getD (i * m + j) d)
        = f (a + i) (b + j) := by
  intro n
  induction n with
  | zero => intro a i j hi _; omega
  | succ k ih =>
    intro a i j hi hj
    rw [List.range'_succ, List.flatMap_cons]
    cases i with
    | zero =>
      rw [Nat.zero_mul, Nat.zero_add]
      rw [getD_append_left _ _ _ _ (by simp [hj])]
      rw [getD_map_lt (f a) _ j (by simp [hj]) d 0]
      have hr : (List.range' b m).getD j 0 = b + j := by
        rw [List.getD_eq_getElem _ _ (by simp [hj])]
        simp [List.getElem_range'_1]
      rw [hr, Nat.add_zero]
    | succ i' =>
      have hmul : (i' + 1) * m = i' * m + m := by ring
      have hkm : (i' + 1) * m ≤ k * m := Nat.mul_le_mul_right m (by omega)
      rw [getD_append_right' _ _ _ _ (by simp; omega)
        (by rw [List.length_map, List.length_range', flatMap_range'_length f b m k (a + 1)]; omega)]
      have hidx : (i' + 1) * m + j - ((List.range' b m).map (f a)).length = i' * m + j := by
        simp only [List.length_map, List.length_range']
        omega
      rw [hidx, ih (a + 1) i' j (by omega) hj]
      congr 1
      omega

/-- C5 counterexample: a reversed row range (`start = end = 1` — the claim
demands `OutOfRange` for `start ≥ end`) is ACCEPTED: the guard in
`OPATTable::slice` checks only `start ≥ length` and `end > length` per
axis, so the call returns a table with zero rows instead of failing; its
column-axis buffer keeps its value-initialized zeros because the axis
copies sit inside the never-entered row loop. -/
theorem slice_reversed_range_accepted :
    exTable.slice ⟨1, 1⟩ ⟨0, 2⟩
        = .ok ⟨0, 2, 0, [], [.fin 0, .fin 0], []⟩
      ∧ (1 : ℕ) ≥ 1 := by
  refine ⟨?_, le_refl 1⟩
  norm_num [OPATTable.slice, exTable, u32sub, List.range, List.range.loop]

/-- C5 (amended): `slice` fails with `OutOfRange` exactly when a range's
start is ≥ the axis length or its end exceeds the axis length — `start ≥
end` alone is NOT rejected (see the counterexample): a reversed or empty
in-bounds range yields a table whose recorded sizes wrap as `uint32_t` and
whose buffers keep their value-initialized zeros where the copy loops never
ran.  When both ranges are genuinely non-empty (`start < end`), the axis
buffers hold the source axis values over the half-open ranges, and — as
long as the cell count does not wrap — the data is exactly the half-open
sub-rectangle `[rs.start, rs.stop) × [cs.start, cs.stop)` in row-major
order. -/
theorem slice_amended (t : OPATTable) (rs cs : Slice)
    (hr32 : rs.stop < 2 ^ 32) (hc32 : cs.stop < 2 ^ 32) :
    (t.slice rs cs = .error .outOfRange
        ↔ rs.start ≥ t.nR ∨ rs.stop > t.nR ∨ cs.start ≥ t.nC ∨ cs.stop > t.nC)
      ∧ ∀ s, t.slice rs cs = .ok s →
          s.nR = u32sub rs.stop rs.start ∧ s.nC = u32sub cs.stop cs.start
            ∧ s.data.length
                = u32sub rs.stop rs.start * u32sub cs.stop cs.start % 2 ^ 32
            ∧ (rs.start < rs.stop → cs.start < cs.stop →
                (∀ i, i < rs.stop - rs.start →
                    s.rowValues.getD i (.fin 0)
                      = t.rowValues.getD (rs.start + i) (.fin 0))
                  ∧ (∀ j, j < cs.stop - cs.start →
                      s.colValues.getD j (.fin 0)
                        = t.colValues.getD (cs.start + j) (.fin 0))
                  ∧ ((rs.stop - rs.start) * (cs.stop - cs.start) < 2 ^ 32 →
                      ∀ i j, i < rs.stop - rs.start → j < cs.stop - cs.start →
                        s.data.getD (i * (cs.stop - cs.start) + j) (.fin 0)
                          = t.data.getD ((rs.start + i) * t.nC + (cs.start + j))
                              (.fin 0))) := by
  constructor
  · constructor
    · intro h
      by_contra hg
      rw [OPATTable.slice, if_neg hg] at h
      exact Except.noConfusion h
    · intro hg
      rw [OPATTable.slice, if_pos hg]
  · intro s h
    rw [OPATTable.slice] at h
    split at h
    · exact Except.noConfusion h
    have hs := (Except.ok.inj h).symm
    subst hs
    refine ⟨rfl, rfl, by simp, ?_⟩
    intro hr hc
    have hur : u32sub rs.stop rs.start = rs.stop - rs.start := by
      unfold u32sub; omega
    have huc : u32sub cs.stop cs.start = cs.stop - cs.start := by
      unfold u32sub; omega
    have hm : 0 < cs.stop - cs.start := by omega
    refine ⟨?_, ?_, ?_⟩
    · intro i hi
      rw [getD_map_range _ _ i (by rw [hur]; exact hi)]
      rw [if_pos ⟨by omega, hc⟩]
    · intro j hj
      rw [getD_map_range _ _ j (by rw [huc]; exact hj)]
      rw [if_pos ⟨by omega, hr⟩]
    · intro hprod i j hi hj
      have hlt : i * (cs.stop - cs.start) + j
          < (rs.stop - rs.start) * (cs.stop - cs.start) := by
        have h1 : i * (cs.stop - cs.start) + j < (i + 1) * (cs.stop - cs.start) := by
          have : (i + 1) * (cs.stop - cs.start)
              = i * (cs.stop - cs.start) + (cs.stop - cs.start) := by ring
          omega
        have h2 : (i + 1) * (cs.stop - cs.start)
            ≤ (rs.stop - rs.start) * (cs.stop - cs.start) :=
          Nat.mul_le_mul_right _ (by omega)
        omega
      have hdiv : (i * (cs.stop - cs.start) + j) / (cs.stop - cs.start) = i := by
        rw [Nat.mul_comm i (cs.stop - cs.start), Nat.mul_add_div hm,
          Nat.div_eq_of_lt hj]
        omega
      have hmod : (i * (cs.stop - cs.start) + j) % (cs.stop - cs.start) = j := by
        rw [Nat.mul_comm i (cs.stop - cs.start), Nat.mul_add_mod,
          Nat.mod_eq_of_lt hj]
      rw [getD_map_range _ _ (i * (cs.stop - cs.start) + j)
        (by rw [hur, huc, Nat.mod_eq_of_lt hprod]; exact hlt)]
      rw [huc, hdiv, hmod, if_pos ⟨hi, hj⟩]

/-- Witness for C5 (amended) at the concrete 2 × 2 table: the slice
`[0, 2) × [1, 2)` succeeds, its column-axis buffer holds the source column
value 1, and its cell (1, 0) is the source cell (1, 1), namely 4. -/
theorem slice_amended_witness :
    (⟨2, 1, 0, [.fin 0, .fin 1], [.fin 1], [.fin 2, .fin 4]⟩ : OPATTable).data.getD
        (1 * (2 - 1) + 0) (.fin 0)
      = exTable.data.getD ((0 + 1) * exTable.nC + (1 + 0)) (.fin 0) := by
  have hok : exTable.slice ⟨0, 2⟩ ⟨1, 2⟩
      = .ok ⟨2, 1, 0, [.fin 0, .fin 1], [.fin 1], [.fin 2, .fin 4]⟩ := by
    norm_num [OPATTable.slice, exTable, u32sub, List.range, List.range.loop]
  exact (((slice_amended exTable ⟨0, 2⟩ ⟨1, 2⟩ (by norm_num) (by norm_num)).2 _
      hok).2.2.2 (by norm_num) (by norm_num)).2.2 (by norm_num) 1 0
    (by norm_num) (by norm_num)

/-- C6 (code bug): `readOPATTable` allocates and reads `numRows * numColumns`
cell doubles, ignoring the entry's per-cell vector size, and never assigns
the result's `m_vsize`.  For the concrete entry with 2 rows, 3 columns and
vector size 2 the cell buffer holds 6 doubles, not
`numRows * numColumns * vectorSize = 12`, refuting the invariant. -/
theorem reader_data_length_bug :
    (readOPATTable exEntry exPayload).map (fun t => t.data.length) = .ok 6
      ∧ (readOPATTable exEntry exPayload).map (fun t => t.vsize) = .ok 0
      ∧ exEntry.numRows * exEntry.numColumns * exEntry.vectorSize = 12
      ∧ (6 : ℕ) ≠ 12 := by
  refine ⟨?_, ?_, by norm_num [exEntry], by norm_num⟩ <;>
    norm_num [readOPATTable, exEntry, exPayload, Except.map]

/-- C7 (code bug): on a big-endian host `readHeader` forgets to swap the
header's `headerSize` field, and the per-entry step of `readTableIndex`
forgets to swap the `size` (per-cell vector size) field: with the
little-endian disk bytes `[0,1,0,0]` (value 256) the parsed `headerSize`
is 65536, and with disk bytes `[2,0,0,0,0,0,0,0]` (value 2) the parsed
vector size is `2 * 256^7` — while the swapped fields (`version`,
`numRows`) parse correctly.  So not every multi-byte integer field is
byte-swapped. -/
theorem bigendian_swap_incomplete :
    (readHeaderBigEndian
        ⟨[1, 0], [1, 0, 0, 0], [0, 1, 0, 0], [0, 0, 0, 0, 0, 0, 0, 0], [2, 0], [8]⟩).version
        = leVal [1, 0]
      ∧ (readHeaderBigEndian
          ⟨[1, 0], [1, 0, 0, 0], [0, 1, 0, 0], [0, 0, 0, 0, 0, 0, 0, 0], [2, 0], [8]⟩).headerSize
        = 65536
      ∧ leVal [0, 1, 0, 0] = 256
      ∧ (65536 : ℕ) ≠ 256
      ∧ (readTableIndexEntryBigEndian
          ⟨[0, 0, 0, 0, 0, 0, 0, 0], [0, 0, 0, 0, 0, 0, 0, 0], [3, 0], [2, 0],
            [2, 0, 0, 0, 0, 0, 0, 0]⟩).numRows
        = leVal [2, 0]
      ∧ (readTableIndexEntryBigEndian
          ⟨[0, 0, 0, 0, 0, 0, 0, 0], [0, 0, 0, 0, 0, 0, 0, 0], [3, 0], [2, 0],
            [2, 0, 0, 0, 0, 0, 0, 0]⟩).vectorSize
        = 2 * 256 ^ 7
      ∧ leVal [2, 0, 0, 0, 0, 0, 0, 0] = 2
      ∧ 2 * 256 ^ 7 ≠ 2 := by
  decide

end Opat
